import Mathlib

set_option maxHeartbeats 1000000

/-!
Verification of the tunnel/manifest development helper in
`scripts/dev.tunnel.ts` of the `nextjs-slack-template` repository.

The source file contains two near-duplicate script variants:
* lines 1-360: the flag-parsing "slack-local" script (generic JSON-path
  patching engine `get`/`set`/`expandWildcards`/`collectTargets`,
  `replaceOrigin`, backup/restore of `manifest.json` and `config.json`,
  SIGINT/SIGTERM handlers exiting 130/143);
* lines 362-507: the `@ngrok/ngrok` SDK variant (`NGROK_AUTH_TOKEN` check,
  fixed-field manifest update, `isCleaningUp`-guarded `handleExit`).

Both variants are embedded below.  The file system is modelled as an
association list from path strings to file contents, and each script's
control flow as a pure function producing a trace of external effects.
-/

namespace DevTunnel

/-- A path segment as in the TypeScript `(string | number)[]` paths of
`scripts/dev.tunnel.ts`: either an object key or an array index. -/
inductive Seg where
  | str (s : String)
  | num (n : Nat)
deriving DecidableEq, Repr

/-- JavaScript property-key coercion: a number used as a property key is
converted to its decimal string. -/
def Seg.key : Seg → String
  | .str s => s
  | .num n => Nat.repr n

/-- A JSON document (`JSONValue`, source lines 116-120).  Object members are an
ordered association list, mirroring JavaScript property order; documents come
from `JSON.parse`, so arrays carry no extra properties and there is no
aliasing. -/
inductive JVal where
  | null
  | bool (b : Bool)
  | num (n : Int)
  | str (s : String)
  | arr (xs : List JVal)
  | obj (kvs : List (String × JVal))

/-- Association-list lookup for object members (JavaScript property read). -/
def lookupA (k : String) : List (String × JVal) → Option JVal
  | [] => none
  | (k', v) :: rest => if k' = k then some v else lookupA k rest

/-- Association-list update for object members: replace an existing property in
place, or append a new one (JavaScript property write order). -/
def updateA (k : String) (v : JVal) : List (String × JVal) → List (String × JVal)
  | [] => [(k, v)]
  | (k', v') :: rest => if k' = k then (k', v) :: rest else (k', v') :: updateA k v rest

/-- Decimal parse of a digit string (structural worker). -/
def natOfDigitsAux : List Char → Nat → Option Nat
  | [], acc => some acc
  | c :: rest, acc =>
      if c.isDigit then natOfDigitsAux rest (acc * 10 + (c.toNat - 48)) else none

/-- Decimal parse of a nonempty digit string. -/
def natOfDigits : List Char → Option Nat
  | [] => none
  | cs => natOfDigitsAux cs 0

/-- JavaScript array-index coercion: a property key addresses an array element
exactly when it is the canonical decimal representation of a natural number. -/
def keyIndex (s : String) : Option Nat :=
  match natOfDigits s.toList with
  | some n => if Nat.repr n = s then some n else none
  | none => none

/-- One step of the member access `cur[key]` performed by `get`
(source lines 129-136), including property-key coercion: objects are looked up
by key string, arrays by canonical numeric index (plus `length`), strings index
to single characters (plus `length`); other scalars yield `undefined`
(modelled as `none`). -/
def getSeg : JVal → Seg → Option JVal
  | .obj kvs, k => lookupA k.key kvs
  | .arr xs, k =>
      match keyIndex k.key with
      | some i => xs.get? i
      | none => if k.key = "length" then some (.num xs.length) else none
  | .str s, k =>
      match keyIndex k.key with
      | some i => (s.toList.get? i).map (fun c => .str (String.singleton c))
      | none => if k.key = "length" then some (.num s.length) else none
  | _, _ => none

/-- `get(obj, pathArr)` (source lines 129-136): walks the path;
`cur == null` (null or undefined) short-circuits to `undefined`. -/
def getPath : JVal → List Seg → Option JVal
  | v, [] => some v
  | .null, _ :: _ => none
  | v, k :: ks =>
      match getSeg v k with
      | none => none
      | some w => getPath w ks

/-- The container `set` creates for a missing intermediate:
`typeof pathArr[i+1] === "number" ? [] : {}` (source line 143). -/
def newContainer : Seg → JVal
  | .num _ => .arr []
  | .str _ => .obj []

/-- One step of the member assignment `cur[key] = value` performed by `set`
(source lines 138-147).  Object properties are replaced or appended; array
elements are replaced at canonical in-range indices.  Out-of-range array
writes, array expando properties and assignments to scalars are not
representable for JSON documents (in strict mode an assignment to a scalar
property throws) and never occur for the resolved target paths `set` is
applied to, so they leave the value unchanged here. -/
def setSeg : JVal → Seg → JVal → JVal
  | .obj kvs, k, v => .obj (updateA k.key v kvs)
  | .arr xs, k, v =>
      match keyIndex k.key with
      | some i => .arr (xs.set i v)
      | none => .arr xs
  | w, _, _ => w

/-- `set(obj, pathArr, value)` (source lines 138-147): walks the path, creating
a fresh container whenever `cur[k] == null`, and assigns at the final segment.
An empty path never occurs (all known patterns have at least three
segments). -/
def setPath : JVal → List Seg → JVal → JVal
  | d, [], _ => d
  | d, [k], v => setSeg d k v
  | d, k :: k2 :: ks, v =>
      let child :=
        match getSeg d k with
        | none => newContainer k2
        | some .null => newContainer k2
        | some c => c
      setSeg d k (setPath child (k2 :: ks) v)

/-- The body of `expandWildcards` once the first wildcard position `i` is
known (source lines 155-163): resolve the prefix, require an array, emit one
concrete path per index. -/
def expandAt (d : JVal) (p : List Seg) (i : Nat) : List (List Seg) :=
  match getPath d (p.take i) with
  | some (.arr xs) =>
      (List.range xs.length).map (fun j => p.take i ++ Seg.num j :: p.drop (i + 1))
  | _ => []

/-- `expandWildcards(obj, path)` (source lines 149-164): locate the first `"*"`
segment, resolve the prefix before it, and emit one concrete path per index of
the resulting array (zero paths if it is not an array). -/
def expandWildcards (d : JVal) (p : List Seg) : List (List Seg) :=
  match p.findIdx? (· == Seg.str "*") with
  | none => [p]
  | some i => expandAt d p i

/-- `KNOWN_PATHS` (source lines 122-127). -/
def KNOWN_PATHS : List (List Seg) :=
  [ [.str "settings", .str "event_subscriptions", .str "request_url"],
    [.str "settings", .str "interactivity", .str "request_url"],
    [.str "features", .str "slash_commands", .str "*", .str "url"],
    [.str "oauth", .str "redirect_urls", .str "*"] ]

/-- The test `/^https?:\/\//.test(v)` (source line 172): the value starts with
`http://` or `https://` (case sensitive, the regex has no `i` flag). -/
def urlTest (s : String) : Bool :=
  "http://".toList.isPrefixOf s.toList || "https://".toList.isPrefixOf s.toList

/-- `collectTargets(manifest)` (source lines 166-177): expand each known
pattern (`p.includes("*") ? expandWildcards(manifest, p) : [p]`), keeping the
resolved paths whose current value is a string matching the URL test. -/
def collectTargets (d : JVal) : List (List Seg) :=
  KNOWN_PATHS.flatMap (fun p =>
    let expanded := if Seg.str "*" ∈ p then expandWildcards d p else [p]
    expanded.filter (fun q =>
      match getPath d q with
      | some (.str s) => urlTest s
      | _ => false))

/-- Claim C9: wildcard expansion.  If the pattern has a first wildcard at
position `i` and the prefix before it resolves to an array of length `n`,
`expandWildcards` returns exactly the `n` paths obtained by replacing the
wildcard with the indices `0..n-1` (differing from the pattern only at that
position); if the prefix resolves to a non-array (or nothing), it returns zero
paths; a pattern with no wildcard yields exactly the one input pattern. -/
theorem C9_expandWildcards_spec (d : JVal) (p : List Seg) :
    (∀ i xs, p.findIdx? (· == Seg.str "*") = some i →
        getPath d (p.take i) = some (.arr xs) →
        expandWildcards d p =
          (List.range xs.length).map (fun j => p.take i ++ Seg.num j :: p.drop (i + 1)))
    ∧ (∀ i, p.findIdx? (· == Seg.str "*") = some i →
        (∀ xs, getPath d (p.take i) ≠ some (.arr xs)) →
        expandWildcards d p = [])
    ∧ (p.findIdx? (· == Seg.str "*") = none → expandWildcards d p = [p]) := by
  refine ⟨?_, ?_, ?_⟩
  · intro i xs hfind hget
    unfold expandWildcards
    rw [hfind]
    show expandAt d p i = _
    unfold expandAt
    rw [hget]
  · intro i hfind hget
    unfold expandWildcards
    rw [hfind]
    show expandAt d p i = _
    unfold expandAt
    rcases hg : getPath d (p.take i) with _ | v
    · rfl
    · cases v with
      | arr xs => exact absurd hg (hget xs)
      | null => rfl
      | bool b => rfl
      | num n => rfl
      | str s => rfl
      | obj kvs => rfl
  · intro hfind
    unfold expandWildcards
    rw [hfind]

/-- Witness for C9 at a concrete document and pattern: an array of length 2
under the wildcard prefix yields exactly the two index-instantiated paths. -/
theorem C9_expandWildcards_spec_witness :
    expandWildcards (JVal.obj [("a", JVal.arr [JVal.null, JVal.null])])
        [Seg.str "a", Seg.str "*", Seg.str "b"]
      = [[Seg.str "a", Seg.num 0, Seg.str "b"], [Seg.str "a", Seg.num 1, Seg.str "b"]] := by
  have h := (C9_expandWildcards_spec (JVal.obj [("a", JVal.arr [JVal.null, JVal.null])])
      [Seg.str "a", Seg.str "*", Seg.str "b"]).1 1 [JVal.null, JVal.null]
      rfl rfl
  exact h.trans rfl

/-!
## URL model

`replaceOrigin` (source lines 104-114) relies on the platform's WHATWG `URL`
class.  The embedding below covers the clean http(s) fragment the script
works with: `scheme://host[:port]path?query#fragment` with scheme and host
already lower-case, the port in canonical decimal, default ports elided, an
empty path normalized to `/`, and character sets restricted to those the
`URL` serializer reproduces verbatim (no percent-encoding, no dot-segment
collapsing, no IPv6/userinfo, no upper-case scheme or host — inputs the URL
class would itself rewrite).  Strings outside this fragment parse to `none`
and flow through `replaceOrigin`'s `catch` branch unchanged. -/

/-- The URL record: lower-case scheme and host, a default port as `none` and
any other port as its canonical digit string, the path with its leading `/`
(defaulting to `/`), query including its leading `?`, fragment including its
leading `#`. -/
structure URLRec where
  scheme : String
  host : String
  port : Option String
  path : String
  query : String
  fragment : String
deriving DecidableEq, Repr

/-- Characters admitted in a (lower-cased) host. -/
def hostChar (c : Char) : Bool := c.isLower || c.isDigit || c = '.' || c = '-'

/-- Characters admitted verbatim in a path. -/
def pathChar (c : Char) : Bool :=
  c.isAlphanum || c = '/' || c = '-' || c = '_' || c = '.' || c = '~'

/-- Characters admitted verbatim in a query or fragment. -/
def queryChar (c : Char) : Bool :=
  c.isAlphanum || c = '-' || c = '_' || c = '.' || c = '~' || c = '=' || c = '&' ||
    c = '/' || c = '?'

/-- A path segment that the URL parser would not collapse. -/
def segOk (seg : List Char) : Bool := seg != ['.'] && seg != ['.', '.']

/-- Worker for `noDotSegs`: `seg` is the segment read so far. -/
def noDotSegsAux : List Char → List Char → Bool
  | seg, [] => segOk seg
  | seg, '/' :: rest => segOk seg && noDotSegsAux [] rest
  | seg, c :: rest => noDotSegsAux (seg ++ [c]) rest

/-- The path contains no `.` or `..` segments (which the URL parser would
collapse). -/
def noDotSegs (cs : List Char) : Bool := noDotSegsAux [] cs

/-- Digit string to number. -/
def digitsToNat (cs : List Char) : Nat := cs.foldl (fun a c => a * 10 + (c.toNat - 48)) 0

/-- Canonical decimal form: no leading zero unless the numeral is `0`. -/
def canonicalDigits (ds : List Char) : Bool := ds == ['0'] || ds.head? != some '0'

/-- Default port of a special scheme, in canonical decimal. -/
def defaultPortStr (scheme : String) : String := if scheme = "https" then "443" else "80"

/-- Parse `host[:port]`, eliding the scheme's default port (the URL parser
stores a default port as null).  The port must be in canonical decimal and
below 65536 (the URL class normalizes other numerals and rejects larger
ports; non-canonical numerals are outside the modelled fragment). -/
def parseHostPort (scheme : String) (hp : List Char) : Option (String × Option String) :=
  let hostCs := hp.takeWhile (· ≠ ':')
  if hostCs.isEmpty || !hostCs.all hostChar then none
  else
    match hp.dropWhile (· ≠ ':') with
    | [] => some (String.mk hostCs, none)
    | ':' :: ds =>
        if ds.isEmpty || !ds.all Char.isDigit || !canonicalDigits ds ||
            decide (65536 ≤ digitsToNat ds) then none
        else if String.mk ds = defaultPortStr scheme then some (String.mk hostCs, none)
        else some (String.mk hostCs, some (String.mk ds))
    | _ :: _ => none

/-- The path component (before `?`/`#`): validated, with an empty path
normalized to `/`. -/
def parsePath (pathCs : List Char) : Option String :=
  if !pathCs.all pathChar || !noDotSegs pathCs ||
      !(pathCs.isEmpty || pathCs.head? = some '/') then none
  else some (if pathCs.isEmpty then "/" else String.mk pathCs)

/-- The query and fragment components (from the first `?`/`#` on). -/
def parseQF (r1 : List Char) : Option (String × String) :=
  match r1 with
  | [] => some ("", "")
  | '?' :: qs =>
      if !(qs.takeWhile (· ≠ '#')).all queryChar then none
      else
        match qs.dropWhile (· ≠ '#') with
        | [] => some (String.mk ('?' :: qs.takeWhile (· ≠ '#')), "")
        | '#' :: fs =>
            if !fs.all queryChar then none
            else some (String.mk ('?' :: qs.takeWhile (· ≠ '#')), String.mk ('#' :: fs))
        | _ :: _ => none
  | '#' :: fs =>
      if !fs.all queryChar then none else some ("", String.mk ('#' :: fs))
  | _ :: _ => none

/-- Parse `path?query#fragment` (everything after the host), normalizing an
empty path to `/`. -/
def parseAfter (after : List Char) : Option (String × String × String) :=
  match parsePath (after.takeWhile fun c => c ≠ '?' && c ≠ '#') with
  | none => none
  | some path =>
      match parseQF (after.dropWhile fun c => c ≠ '?' && c ≠ '#') with
      | none => none
      | some (q, f) => some (path, q, f)

/-- `new URL(s)` on the modelled fragment: scheme up to the first `:`, then
`//`, then `host[:port]` up to the first `/`, `?` or `#`, then the rest.
Only `http` and `https` (case-insensitively) are accepted. -/
def parseURL (s : String) : Option URLRec :=
  let cs := s.toList
  let schemeCs := cs.takeWhile (· ≠ ':')
  match cs.dropWhile (· ≠ ':') with
  | ':' :: '/' :: '/' :: rest =>
      if schemeCs = "http".toList ∨ schemeCs = "https".toList then
        let scheme := String.mk schemeCs
        let hostport := rest.takeWhile (fun c => c ≠ '/' && c ≠ '?' && c ≠ '#')
        let after := rest.dropWhile (fun c => c ≠ '/' && c ≠ '?' && c ≠ '#')
        match parseHostPort scheme hostport with
        | none => none
        | some (host, port) =>
            match parseAfter after with
            | none => none
            | some (path, query, fragment) => some ⟨scheme, host, port, path, query, fragment⟩
      else none
  | _ => none

/-- `URL#toString` on the modelled fragment. -/
def serializeURL (u : URLRec) : String :=
  u.scheme ++ "://" ++ u.host ++
    (match u.port with | some ps => ":" ++ ps | none => "") ++
    u.path ++ u.query ++ u.fragment

/-- Drop the port if it is the default for the current scheme (the URL
parser and setters store a default port as null). -/
def elidePort (u : URLRec) : URLRec :=
  if u.port = some (defaultPortStr u.scheme) then { u with port := none } else u

/-- `u.protocol = n.protocol; u.host = n.host` (source lines 108-109) with the
WHATWG setter semantics: the protocol setter drops a port that is the new
scheme's default; the host setter sets host and port together when the
assigned host string carries a port, and leaves the old port in place when it
does not (a resulting default port is again dropped). -/
def setOrigin (u n : URLRec) : URLRec :=
  match n.port with
  | some ps => elidePort { elidePort { u with scheme := n.scheme } with host := n.host, port := some ps }
  | none => { elidePort { u with scheme := n.scheme } with host := n.host }

/-- `replaceOrigin(url, newOrigin)` (source lines 104-114): parse both; on any
parse failure return `url` unchanged (the `catch` branch); otherwise replace
scheme and host and serialize. -/
def replaceOrigin (url newOrigin : String) : String :=
  match parseURL url, parseURL newOrigin with
  | some u, some n => serializeURL (setOrigin u n)
  | _, _ => url

/-- A parsed URL never carries its scheme's default port explicitly. -/
theorem parseHostPort_port_ne_default {scheme : String} {hp : List Char}
    {host : String} {port : Option String} (h : parseHostPort scheme hp = some (host, port)) :
    port ≠ some (defaultPortStr scheme) := by
  simp only [parseHostPort] at h
  split at h
  · exact Option.noConfusion h
  · split at h
    · injection h with h'
      cases h'
      simp
    · split at h
      · exact Option.noConfusion h
      · split at h
        · injection h with h'
          cases h'
          simp
        · injection h with h'
          cases h'
          rename_i hne
          intro hcon
          exact hne (Option.some.inj hcon)
    · exact Option.noConfusion h

/-- A parsed URL never carries its scheme's default port explicitly. -/
theorem parseURL_port_ne_default {s : String} {u : URLRec} (h : parseURL s = some u) :
    u.port ≠ some (defaultPortStr u.scheme) := by
  simp only [parseURL] at h
  split at h
  · split at h
    · split at h
      · exact Option.noConfusion h
      · split at h
        · exact Option.noConfusion h
        · injection h with h'
          rw [← h']
          exact parseHostPort_port_ne_default (by assumption)
    · exact Option.noConfusion h
  · exact Option.noConfusion h

/-- Claim C6, counterexample: `replaceOrigin` is not a strict no-op even when
the new origin equals the value's current origin, because `URL#toString`
normalizes the serialization — `https://example.com` (no path) comes back as
`https://example.com/`.  The first conjunct records that value and origin
parse to the same scheme, host and port. -/
theorem C6_counterexample_normalization :
    parseURL "https://example.com" = some ⟨"https", "example.com", none, "/", "", ""⟩
    ∧ replaceOrigin "https://example.com" "https://example.com" = "https://example.com/"
    ∧ "https://example.com/" ≠ "https://example.com" := by
  refine ⟨by decide, by decide, by decide⟩

/-- Claim C6, amended: for every value `v` and origin `o` that parse in the
modelled URL fragment with equal scheme, host and port, `replaceOrigin v o`
returns `v` unchanged provided `v` is already in normalized serialized form
(`serializeURL` of its parse); without that proviso the result is `v`'s
normalization rather than `v` itself. -/
theorem C6_replaceOrigin_noop_on_matching_origin (v o : String) (u n : URLRec)
    (hv : parseURL v = some u) (ho : parseURL o = some n)
    (hs : n.scheme = u.scheme) (hh : n.host = u.host) (hp : n.port = u.port)
    (hser : serializeURL u = v) :
    replaceOrigin v o = v := by
  have hnd : u.port ≠ some (defaultPortStr u.scheme) := parseURL_port_ne_default hv
  have helide : elidePort u = u := by
    unfold elidePort
    rw [if_neg hnd]
  have hself : ({ u with scheme := u.scheme } : URLRec) = u := rfl
  have hsetOrigin : setOrigin u n = u := by
    unfold setOrigin
    rw [hp, hs, hh, hself, helide]
    rcases hup : u.port with _ | p
    · rfl
    · show elidePort { u with host := u.host, port := some p } = u
      rw [← hup]
      show elidePort u = u
      exact helide
  unfold replaceOrigin
  rw [hv, ho]
  show serializeURL (setOrigin u n) = v
  rw [hsetOrigin, hser]

/-- Witness for the amended C6 at a concrete normalized value. -/
theorem C6_replaceOrigin_noop_witness :
    replaceOrigin "https://example.com/" "https://example.com" = "https://example.com/" :=
  C6_replaceOrigin_noop_on_matching_origin "https://example.com/" "https://example.com"
    ⟨"https", "example.com", none, "/", "", ""⟩ ⟨"https", "example.com", none, "/", "", ""⟩
    (by decide) (by decide) rfl rfl rfl (by decide)

/-!
## URL round trip

`replaceOrigin`'s output re-parses to the record it was serialized from;
this underlies the fixed-point property of the patch pass (claim C7). -/

/-- Splitting an append at the first character failing `p`. -/
theorem takeWhile_dropWhile_append {α : Type} (p : α → Bool) (a b : List α)
    (ha : ∀ x ∈ a, p x = true) (hb : ∀ x, b.head? = some x → p x = false) :
    (a ++ b).takeWhile p = a ∧ (a ++ b).dropWhile p = b := by
  induction a with
  | nil =>
      simp only [List.nil_append]
      cases b with
      | nil => exact ⟨rfl, rfl⟩
      | cons x xs =>
          have hx : p x = false := hb x rfl
          exact ⟨by simp [List.takeWhile_cons, hx], by simp [List.dropWhile_cons, hx]⟩
  | cons y ys ih =>
      have hy : p y = true := ha y (by simp)
      have ih' := ih fun x hx => ha x (by simp [hx])
      constructor
      · rw [List.cons_append, List.takeWhile_cons]
        simp [hy, ih'.1]
      · rw [List.cons_append, List.dropWhile_cons]
        simp [hy, ih'.2]

theorem hostChar_spec {c : Char} (h : hostChar c = true) :
    c ≠ ':' ∧ c ≠ '/' ∧ c ≠ '?' ∧ c ≠ '#' := by
  refine ⟨?_, ?_, ?_, ?_⟩ <;> (rintro rfl; exact absurd h (by decide))

theorem digitChar_spec {c : Char} (h : c.isDigit = true) :
    c ≠ ':' ∧ c ≠ '/' ∧ c ≠ '?' ∧ c ≠ '#' := by
  refine ⟨?_, ?_, ?_, ?_⟩ <;> (rintro rfl; exact absurd h (by decide))

theorem pathChar_spec {c : Char} (h : pathChar c = true) : c ≠ '?' ∧ c ≠ '#' := by
  refine ⟨?_, ?_⟩ <;> (rintro rfl; exact absurd h (by decide))

theorem queryChar_spec {c : Char} (h : queryChar c = true) : c ≠ '#' := by
  rintro rfl; exact absurd h (by decide)

/-- The invariants `parseURL` establishes on its result, phrased on the
record: exactly what the round trip needs. -/
structure NormalURL (u : URLRec) : Prop where
  scheme_ok : u.scheme = "http" ∨ u.scheme = "https"
  host_ne : u.host.toList ≠ []
  host_ok : u.host.toList.all hostChar = true
  port_ok : ∀ ps, u.port = some ps →
    ps.toList ≠ [] ∧ ps.toList.all Char.isDigit = true ∧
      canonicalDigits ps.toList = true ∧ digitsToNat ps.toList < 65536 ∧
      ps ≠ defaultPortStr u.scheme
  path_head : u.path.toList.head? = some '/'
  path_ok : u.path.toList.all pathChar = true
  path_dots : noDotSegs u.path.toList = true
  query_ok : u.query = "" ∨ ∃ qs, u.query.toList = '?' :: qs ∧ qs.all queryChar = true
  frag_ok : u.fragment = "" ∨ ∃ fs, u.fragment.toList = '#' :: fs ∧ fs.all queryChar = true

theorem parsePath_normal {cs : List Char} {path : String} (h : parsePath cs = some path) :
    path.toList.head? = some '/' ∧ path.toList.all pathChar = true ∧
      noDotSegs path.toList = true := by
  simp only [parsePath] at h
  split at h
  · exact Option.noConfusion h
  · rename_i hcond
    simp only [Bool.or_eq_true, Bool.not_eq_true', not_or, Bool.not_eq_false] at hcond
    obtain ⟨⟨hall, hdots⟩, hhead⟩ := hcond
    injection h with h'
    subst h'
    rcases hemp : cs.isEmpty with _ | _
    · have hne : cs ≠ [] := by simpa [List.isEmpty_iff] using hemp
      rw [if_neg (by simp [hemp])]
      have hh : cs.head? = some '/' := by
        rcases hhead with h1 | h2
        · exact absurd (by simpa [List.isEmpty_iff] using h1) hne
        · simpa using h2
      exact ⟨by simpa using hh, by simpa using hall, by simpa using hdots⟩
    · rw [if_pos (by simp [hemp])]
      refine ⟨by decide, by decide, by decide⟩

theorem parseQF_normal {r1 : List Char} {q f : String} (h : parseQF r1 = some (q, f)) :
    (q = "" ∨ ∃ qs, q.toList = '?' :: qs ∧ qs.all queryChar = true) ∧
      (f = "" ∨ ∃ fs, f.toList = '#' :: fs ∧ fs.all queryChar = true) := by
  simp only [parseQF] at h
  split at h
  · injection h with h'
    obtain ⟨rfl, rfl⟩ := Prod.mk.inj h'
    exact ⟨Or.inl rfl, Or.inl rfl⟩
  · rename_i qs
    split at h
    · exact Option.noConfusion h
    · rename_i hq
      simp only [Bool.not_eq_true', Bool.not_eq_false] at hq
      split at h
      · injection h with h'
        obtain ⟨rfl, rfl⟩ := Prod.mk.inj h'
        exact ⟨Or.inr ⟨_, rfl, hq⟩, Or.inl rfl⟩
      · split at h
        · exact Option.noConfusion h
        · rename_i hf
          simp only [Bool.not_eq_true', Bool.not_eq_false] at hf
          injection h with h'
          obtain ⟨rfl, rfl⟩ := Prod.mk.inj h'
          exact ⟨Or.inr ⟨_, rfl, hq⟩, Or.inr ⟨_, rfl, hf⟩⟩
      · exact Option.noConfusion h
  · rename_i fs
    split at h
    · exact Option.noConfusion h
    · rename_i hf
      simp only [Bool.not_eq_true', Bool.not_eq_false] at hf
      injection h with h'
      obtain ⟨rfl, rfl⟩ := Prod.mk.inj h'
      exact ⟨Or.inl rfl, Or.inr ⟨_, rfl, hf⟩⟩
  · exact Option.noConfusion h

theorem parseHostPort_normal {scheme : String} {hp : List Char} {host : String}
    {port : Option String} (h : parseHostPort scheme hp = some (host, port)) :
    host.toList ≠ [] ∧ host.toList.all hostChar = true ∧
      ∀ ps, port = some ps →
        ps.toList ≠ [] ∧ ps.toList.all Char.isDigit = true ∧
          canonicalDigits ps.toList = true ∧ digitsToNat ps.toList < 65536 ∧
          ps ≠ defaultPortStr scheme := by
  simp only [parseHostPort] at h
  split at h
  · exact Option.noConfusion h
  · rename_i hcond
    simp only [Bool.or_eq_true, Bool.not_eq_true', not_or, Bool.not_eq_false] at hcond
    obtain ⟨hne, hall⟩ := hcond
    have hne' : (hp.takeWhile (· ≠ ':')) ≠ [] := by
      simpa [List.isEmpty_iff] using hne
    split at h
    · injection h with h'
      obtain ⟨rfl, rfl⟩ := Prod.mk.inj h'
      exact ⟨by simpa using hne', by simpa using hall, fun ps hps => Option.noConfusion hps⟩
    · split at h
      · exact Option.noConfusion h
      · rename_i hds
        simp only [Bool.or_eq_true, Bool.not_eq_true', not_or, Bool.not_eq_false,
          decide_eq_true_eq] at hds
        obtain ⟨⟨⟨hdne, hdall⟩, hdcanon⟩, hdlt⟩ := hds
        split at h
        · injection h with h'
          obtain ⟨rfl, rfl⟩ := Prod.mk.inj h'
          exact ⟨by simpa using hne', by simpa using hall,
            fun ps hps => Option.noConfusion hps⟩
        · rename_i hdef
          injection h with h'
          obtain ⟨rfl, rfl⟩ := Prod.mk.inj h'
          refine ⟨by simpa using hne', by simpa using hall, ?_⟩
          intro ps hps
          injection hps with hps'
          subst hps'
          refine ⟨by simpa [List.isEmpty_iff] using hdne, by simpa using hdall,
            by simpa using hdcanon, not_le.mp hdlt, hdef⟩
    · exact Option.noConfusion h

theorem parseAfter_parts {after : List Char} {path q f : String}
    (h : parseAfter after = some (path, q, f)) :
    parsePath (after.takeWhile fun c => c ≠ '?' && c ≠ '#') = some path ∧
      parseQF (after.dropWhile fun c => c ≠ '?' && c ≠ '#') = some (q, f) := by
  simp only [parseAfter] at h
  split at h
  · exact Option.noConfusion h
  · rename_i path' hpp
    split at h
    · exact Option.noConfusion h
    · rename_i pr q' f' hqf
      injection h with h'
      obtain ⟨rfl, h2⟩ := Prod.mk.inj h'
      obtain ⟨rfl, rfl⟩ := Prod.mk.inj h2
      exact ⟨hpp, hqf⟩

/-- The characters the port contributes to the serialization. -/
def portTail : Option String → List Char
  | none => []
  | some ps => ':' :: ps.toList

theorem serializeURL_toList (u : URLRec) :
    (serializeURL u).toList =
      u.scheme.toList ++ ':' :: '/' :: '/' ::
        (u.host.toList ++ portTail u.port ++
          (u.path.toList ++ (u.query.toList ++ u.fragment.toList))) := by
  show (serializeURL u).data = _
  cases hup : u.port with
  | none =>
      simp [serializeURL, hup, portTail, String.data_append, String.toList]
  | some ps =>
      simp [serializeURL, hup, portTail, String.data_append, String.toList]

theorem parsePath_roundtrip {p : String} (h1 : p.toList.head? = some '/')
    (h2 : p.toList.all pathChar = true) (h3 : noDotSegs p.toList = true) :
    parsePath p.toList = some p := by
  have hne : p.toList ≠ [] := by
    intro h
    rw [h] at h1
    exact Option.noConfusion h1
  have hemp : p.toList.isEmpty = false := by simpa [List.isEmpty_iff] using hne
  simp only [parsePath, h2, h3, hemp, h1]
  norm_num

theorem parseQF_roundtrip {q f : String}
    (hq : q = "" ∨ ∃ qs, q.toList = '?' :: qs ∧ qs.all queryChar = true)
    (hf : f = "" ∨ ∃ fs, f.toList = '#' :: fs ∧ fs.all queryChar = true) :
    parseQF (q.toList ++ f.toList) = some (q, f) := by
  have hmk : ∀ s : String, String.mk s.toList = s := fun _ => rfl
  rcases hq with rfl | ⟨qs, hqeq, hqall⟩
  · rcases hf with rfl | ⟨fs, hfeq, hfall⟩
    · rfl
    · show parseQF ([] ++ f.toList) = some ("", f)
      rw [List.nil_append, hfeq]
      simp only [parseQF, hfall]
      rw [← hfeq, hmk]
      simp
  · have hqne : ∀ x ∈ qs, (fun c => decide (c ≠ '#')) x = true := by
      intro x hx
      have : queryChar x = true := by
        have := List.all_eq_true.mp hqall x hx
        simpa using this
      simpa using queryChar_spec this
    rcases hf with rfl | ⟨fs, hfeq, hfall⟩
    · show parseQF (q.toList ++ []) = some (q, "")
      rw [List.append_nil, hqeq]
      have hsplit := takeWhile_dropWhile_append (fun c => decide (c ≠ '#')) qs []
        hqne (fun x hx => Option.noConfusion hx)
      rw [List.append_nil] at hsplit
      simp only [parseQF, hsplit.1, hsplit.2, hqall]
      rw [← hqeq, hmk]
      simp
    · rw [hqeq, hfeq]
      have hsplit := takeWhile_dropWhile_append (fun c => decide (c ≠ '#')) qs ('#' :: fs)
        hqne (by intro x hx; injection hx with hx'; subst hx'; decide)
      show parseQF ('?' :: (qs ++ '#' :: fs)) = some (q, f)
      simp only [parseQF, hsplit.1, hsplit.2, hqall, hfall]
      rw [show ('?' :: qs : List Char) = q.toList from hqeq.symm, hmk,
        show ('#' :: fs : List Char) = f.toList from hfeq.symm, hmk]
      simp

theorem parseHostPort_roundtrip {scheme host : String} {port : Option String}
    (hne : host.toList ≠ []) (hok : host.toList.all hostChar = true)
    (hport : ∀ ps, port = some ps →
      ps.toList ≠ [] ∧ ps.toList.all Char.isDigit = true ∧
        canonicalDigits ps.toList = true ∧ digitsToNat ps.toList < 65536 ∧
        ps ≠ defaultPortStr scheme) :
    parseHostPort scheme (host.toList ++ portTail port) = some (host, port) := by
  have hmk : ∀ s : String, String.mk s.toList = s := fun _ => rfl
  have hhostne : ∀ x ∈ host.toList, (fun c => decide (c ≠ ':')) x = true := by
    intro x hx
    have : hostChar x = true := by simpa using List.all_eq_true.mp hok x hx
    simpa using (hostChar_spec this).1
  have hbhead : ∀ x, (portTail port).head? = some x →
      (fun c => decide (c ≠ ':')) x = false := by
    intro x hx
    cases port with
    | none => exact Option.noConfusion hx
    | some ps =>
        injection hx with hx'
        subst hx'
        decide
  have hsplit := takeWhile_dropWhile_append (fun c => decide (c ≠ ':'))
    host.toList (portTail port) hhostne hbhead
  have hemp : (host.toList ++ portTail port).takeWhile (fun c => decide (c ≠ ':')) ≠ [] := by
    rw [hsplit.1]; exact hne
  simp only [parseHostPort, hsplit.1, hsplit.2]
  rw [if_neg (by
    simp [List.isEmpty_iff]
    exact ⟨hne, fun x hx => List.all_eq_true.mp hok x hx⟩)]
  cases hP : port with
  | none =>
      simp only [portTail]
      rw [hmk]
  | some ps =>
      obtain ⟨hp1, hp2, hp3, hp4, hp5⟩ := hport ps hP
      simp only [portTail]
      rw [if_neg (by
        simp [List.isEmpty_iff, not_le]
        exact ⟨⟨⟨hp1, fun x hx => List.all_eq_true.mp hp2 x hx⟩, hp3⟩, hp4⟩)]
      rw [if_neg (by rw [hmk]; exact hp5), hmk, hmk]

theorem parseAfter_roundtrip {path q f : String}
    (h1 : path.toList.head? = some '/') (h2 : path.toList.all pathChar = true)
    (h3 : noDotSegs path.toList = true)
    (hq : q = "" ∨ ∃ qs, q.toList = '?' :: qs ∧ qs.all queryChar = true)
    (hf : f = "" ∨ ∃ fs, f.toList = '#' :: fs ∧ fs.all queryChar = true) :
    parseAfter (path.toList ++ (q.toList ++ f.toList)) = some (path, q, f) := by
  have hpa : ∀ x ∈ path.toList,
      (fun c => decide (c ≠ '?') && decide (c ≠ '#')) x = true := by
    intro x hx
    have hc : pathChar x = true := List.all_eq_true.mp h2 x hx
    have hcs := pathChar_spec hc
    simp [hcs.1, hcs.2]
  have hbh : ∀ x, (q.toList ++ f.toList).head? = some x →
      (fun c => decide (c ≠ '?') && decide (c ≠ '#')) x = false := by
    intro x hx
    rcases hq with rfl | ⟨qs, hqe, _⟩
    · rcases hf with rfl | ⟨fs, hfe, _⟩
      · exact Option.noConfusion hx
      · rw [show ("" : String).toList ++ f.toList = f.toList from rfl, hfe] at hx
        injection hx with hx'
        subst hx'
        decide
    · rw [hqe, List.cons_append] at hx
      injection hx with hx'
      subst hx'
      decide
  have hsplit := takeWhile_dropWhile_append (fun c => decide (c ≠ '?') && decide (c ≠ '#'))
    path.toList (q.toList ++ f.toList) hpa hbh
  simp only [parseAfter, hsplit.1, hsplit.2, parsePath_roundtrip h1 h2 h3,
    parseQF_roundtrip hq hf]

theorem parseURL_roundtrip {u : URLRec} (hu : NormalURL u) :
    parseURL (serializeURL u) = some u := by
  obtain ⟨hs, hh1, hh2, hh3, hp1, hp2, hp3, hq, hf⟩ := hu
  have hscheme_ne : ∀ x ∈ u.scheme.toList, (fun c => decide (c ≠ ':')) x = true := by
    rcases hs with h | h <;> (rw [h]; decide)
  have hsplit1 := takeWhile_dropWhile_append (fun c => decide (c ≠ ':'))
    u.scheme.toList
    (':' :: '/' :: '/' ::
      (u.host.toList ++ portTail u.port ++
        (u.path.toList ++ (u.query.toList ++ u.fragment.toList))))
    hscheme_ne (by intro x hx; injection hx with hx'; subst hx'; decide)
  have hstop : ∀ x ∈ u.host.toList ++ portTail u.port,
      (fun c => decide (c ≠ '/') && decide (c ≠ '?') && decide (c ≠ '#')) x = true := by
    intro x hx
    rcases List.mem_append.mp hx with hx | hx
    · have hc : hostChar x = true := List.all_eq_true.mp hh2 x hx
      have hcs := hostChar_spec hc
      simp [hcs.2.1, hcs.2.2.1, hcs.2.2.2]
    · cases hP : u.port with
      | none =>
          rw [hP] at hx
          exact absurd hx (by simp [portTail])
      | some ps =>
          rw [hP] at hx
          simp only [portTail, List.mem_cons] at hx
          rcases hx with rfl | hx
          · decide
          · have hdall := (hh3 ps hP).2.1
            have hd : x.isDigit = true := List.all_eq_true.mp hdall x hx
            have hds := digitChar_spec hd
            simp [hds.2.1, hds.2.2.1, hds.2.2.2]
  have hafterhead : ∀ x,
      (u.path.toList ++ (u.query.toList ++ u.fragment.toList)).head? = some x →
      (fun c => decide (c ≠ '/') && decide (c ≠ '?') && decide (c ≠ '#')) x = false := by
    intro x hx
    cases hpt : u.path.toList with
    | nil =>
        rw [hpt] at hp1
        exact Option.noConfusion hp1
    | cons c cs =>
        rw [hpt] at hp1
        injection hp1 with hp1'
        rw [hpt, List.cons_append] at hx
        injection hx with hx'
        subst hx'
        subst hp1'
        decide
  have hsplit2 := takeWhile_dropWhile_append
    (fun c => decide (c ≠ '/') && decide (c ≠ '?') && decide (c ≠ '#'))
    (u.host.toList ++ portTail u.port)
    (u.path.toList ++ (u.query.toList ++ u.fragment.toList)) hstop hafterhead
  have hcond : u.scheme.toList = "http".toList ∨ u.scheme.toList = "https".toList := by
    rcases hs with h | h
    · exact Or.inl (by rw [h])
    · exact Or.inr (by rw [h])
  simp only [parseURL, serializeURL_toList, hsplit1.1, hsplit1.2]
  rw [if_pos hcond]
  simp only [hsplit2.1, hsplit2.2]
  rw [show String.mk u.scheme.toList = u.scheme from rfl,
    parseHostPort_roundtrip hh1 hh2 hh3]
  simp only [parseAfter_roundtrip hp1 hp2 hp3 hq hf]

theorem length_dropWhile_le {α : Type} (p : α → Bool) (l : List α) :
    (l.dropWhile p).length ≤ l.length := by
  induction l with
  | nil => simp
  | cons x xs ih =>
      rw [List.dropWhile_cons]
      split
      · exact Nat.le_trans ih (by simp)
      · simp

/-- A parsed string has at least two characters (it contains `://`). -/
theorem parseURL_length {s : String} {u : URLRec} (h : parseURL s = some u) :
    2 ≤ s.length := by
  simp only [parseURL] at h
  split at h
  · rename_i heq
    have hle := length_dropWhile_le (fun c => decide (c ≠ ':')) s.toList
    rw [heq] at hle
    have hlen : s.length = s.toList.length := rfl
    simp only [List.length_cons] at hle
    omega
  · exact Option.noConfusion h

/-- Every parse result satisfies the record invariants. -/
theorem parseURL_normal {s : String} {u : URLRec} (h : parseURL s = some u) :
    NormalURL u := by
  simp only [parseURL] at h
  split at h
  · split at h
    · rename_i hscheme
      split at h
      · exact Option.noConfusion h
      · rename_i host port hhp
        split at h
        · exact Option.noConfusion h
        · rename_i pr path query frag hpa
          injection h with h'
          subst h'
          obtain ⟨hh1, hh2, hh3⟩ := parseHostPort_normal hhp
          obtain ⟨hpp, hqf⟩ := parseAfter_parts hpa
          obtain ⟨hp1, hp2, hp3⟩ := parsePath_normal hpp
          obtain ⟨hq, hf⟩ := parseQF_normal hqf
          refine ⟨?_, hh1, hh2, hh3, hp1, hp2, hp3, hq, hf⟩
          rcases hscheme with hs | hs
          · exact Or.inl (by rw [hs]; rfl)
          · exact Or.inr (by rw [hs]; rfl)
    · exact Option.noConfusion h
  · exact Option.noConfusion h

/-- `setOrigin` in closed form. -/
theorem setOrigin_eq (u n : URLRec) :
    setOrigin u n =
      { scheme := n.scheme, host := n.host,
        port :=
          match n.port with
          | some ps => if ps = defaultPortStr n.scheme then none else some ps
          | none => if u.port = some (defaultPortStr n.scheme) then none else u.port,
        path := u.path, query := u.query, fragment := u.fragment } := by
  obtain ⟨us, uh, upo, upa, uq, uf⟩ := u
  obtain ⟨ns, nh, npo, npa, nq, nf⟩ := n
  simp only [setOrigin, elidePort]
  cases npo with
  | none =>
      by_cases hc : upo = some (defaultPortStr ns)
      · simp only [if_pos hc]
      · simp only [if_neg hc]
  | some ps =>
      by_cases hc : upo = some (defaultPortStr ns)
      · simp only [if_pos hc]
        by_cases h : ps = defaultPortStr ns
        · simp [h]
        · simp [h]
      · simp only [if_neg hc]
        by_cases h : ps = defaultPortStr ns
        · simp [h]
        · simp [h]

/-- Replacing the origin twice with the same origin is the same as once. -/
theorem setOrigin_idem (u n : URLRec) : setOrigin (setOrigin u n) n = setOrigin u n := by
  rw [setOrigin_eq u n, setOrigin_eq]
  cases hnp : n.port with
  | none =>
      by_cases h : u.port = some (defaultPortStr n.scheme)
      · simp [h]
      · simp [h]
  | some ps => rfl

/-- `setOrigin` preserves the record invariants. -/
theorem setOrigin_normal {u n : URLRec} (hu : NormalURL u) (hn : NormalURL n) :
    NormalURL (setOrigin u n) := by
  rw [setOrigin_eq]
  refine ⟨hn.scheme_ok, hn.host_ne, hn.host_ok, ?_, hu.path_head, hu.path_ok,
    hu.path_dots, hu.query_ok, hu.frag_ok⟩
  intro ps hps
  cases hnp : n.port with
  | some ps' =>
      rw [hnp] at hps
      simp only at hps
      split at hps
      · exact Option.noConfusion hps
      · rename_i hne
        injection hps with hps'
        obtain ⟨a, b, c, d, _⟩ := hn.port_ok ps' hnp
        rw [← hps']
        exact ⟨a, b, c, d, hne⟩
  | none =>
      rw [hnp] at hps
      simp only at hps
      split at hps
      · exact Option.noConfusion hps
      · rename_i hne
        obtain ⟨a, b, c, d, _⟩ := hu.port_ok ps hps
        refine ⟨a, b, c, d, ?_⟩
        intro hcon
        exact hne (by rw [hps, hcon])

/-- `replaceOrigin` is stable: applying it twice with the same origin gives
the result of applying it once. -/
theorem replaceOrigin_stable (s o : String) :
    replaceOrigin (replaceOrigin s o) o = replaceOrigin s o := by
  rcases hs : parseURL s with _ | u
  · show replaceOrigin (replaceOrigin s o) o = replaceOrigin s o
    have h1 : replaceOrigin s o = s := by
      unfold replaceOrigin
      rw [hs]
    rw [h1]
    exact h1
  · rcases ho : parseURL o with _ | n
    · have h1 : replaceOrigin s o = s := by
        unfold replaceOrigin
        rw [hs, ho]
      rw [h1]
      exact h1
    · have h1 : replaceOrigin s o = serializeURL (setOrigin u n) := by
        unfold replaceOrigin
        rw [hs, ho]
      have hnorm : NormalURL (setOrigin u n) :=
        setOrigin_normal (parseURL_normal hs) (parseURL_normal ho)
      have h2 : parseURL (serializeURL (setOrigin u n)) = some (setOrigin u n) :=
        parseURL_roundtrip hnorm
      rw [h1]
      unfold replaceOrigin
      rw [h2, ho]
      show serializeURL (setOrigin (setOrigin u n) n) = serializeURL (setOrigin u n)
      rw [setOrigin_idem]

/-- A value `replaceOrigin` actually changes has at least two characters
(otherwise it would not have parsed). -/
theorem replaceOrigin_changed_length {s o : String} (h : replaceOrigin s o ≠ s) :
    2 ≤ s.length := by
  rcases hs : parseURL s with _ | u
  · exact absurd (by unfold replaceOrigin; rw [hs]) h
  · exact parseURL_length hs

/-!
## Reading and writing JSON paths

Lemmas about `get`/`set` used for the patch pass's fixed point (claim C7).
Member access is governed by the property key (`Seg.key`), so aliasing
segments (`Seg.num 0` vs `Seg.str "0"`) address the same slot. -/

theorem getPath_cons (d : JVal) (k : Seg) (q : List Seg) :
    getPath d (k :: q) =
      match getSeg d k with
      | none => none
      | some w => getPath w q := by
  cases d <;> rfl

theorem getPath_cons_congr {d d' : JVal} {k : Seg} (q : List Seg)
    (h : getSeg d' k = getSeg d k) : getPath d' (k :: q) = getPath d (k :: q) := by
  rw [getPath_cons, getPath_cons, h]

theorem lookupA_updateA_self (k : String) (v : JVal) (l : List (String × JVal)) :
    lookupA k (updateA k v l) = some v := by
  induction l with
  | nil => simp [updateA, lookupA]
  | cons e rest ih =>
      obtain ⟨k', v'⟩ := e
      by_cases h : k' = k
      · simp [updateA, lookupA, h]
      · simp [updateA, lookupA, h, ih]

theorem lookupA_updateA_ne (k k2 : String) (v : JVal) (l : List (String × JVal))
    (h : k2 ≠ k) : lookupA k2 (updateA k v l) = lookupA k2 l := by
  have hkk : ¬ (k = k2) := fun he => h he.symm
  induction l with
  | nil => simp only [updateA, lookupA, if_neg hkk]
  | cons e rest ih =>
      obtain ⟨k', v'⟩ := e
      simp only [updateA]
      by_cases hk : k' = k
      · subst hk
        rw [if_pos rfl]
        simp only [lookupA, if_neg hkk]
      · rw [if_neg hk]
        simp only [lookupA]
        by_cases hk2 : k' = k2
        · rw [if_pos hk2, if_pos hk2]
        · rw [if_neg hk2, if_neg hk2]
          exact ih

/-- A key addressing an array slot is the canonical numeral of its index. -/
theorem keyIndex_canon {s : String} {n : Nat} (h : keyIndex s = some n) :
    s = Nat.repr n := by
  simp only [keyIndex] at h
  split at h
  · split at h
    · rename_i heq
      injection h with h'
      subst h'
      exact heq.symm
    · exact Option.noConfusion h
  · exact Option.noConfusion h

theorem getSeg_setSeg_obj (kvs : List (String × JVal)) (k k' : Seg) (v : JVal) :
    getSeg (setSeg (.obj kvs) k v) k' =
      if k'.key = k.key then some v else getSeg (.obj kvs) k' := by
  simp only [setSeg, getSeg]
  by_cases h : k'.key = k.key
  · rw [if_pos h, h, lookupA_updateA_self]
  · rw [if_neg h, lookupA_updateA_ne _ _ _ _ h]

theorem getSeg_setSeg_arr (xs : List JVal) (k k' : Seg) (v : JVal) {i : Nat}
    (hki : keyIndex k.key = some i) :
    getSeg (setSeg (.arr xs) k v) k' =
      if k'.key = k.key then (xs.get? i).map (fun _ => v) else getSeg (.arr xs) k' := by
  simp only [setSeg, getSeg, hki]
  rcases hki' : keyIndex k'.key with _ | j
  · have hne : k'.key ≠ k.key := by
      intro he
      rw [he, hki] at hki'
      exact Option.noConfusion hki'
    rw [if_neg hne]
    simp [getSeg, hki', List.length_set]
  · by_cases hij : j = i
    · subst hij
      have hkk : k'.key = k.key := by rw [keyIndex_canon hki', keyIndex_canon hki]
      rw [if_pos hkk]
      simp only [getSeg, hki']
      exact List.get?_set_eq v j xs
    · have hne : k'.key ≠ k.key := by
        intro he
        rw [he, hki] at hki'
        injection hki' with h'
        exact hij h'.symm
      rw [if_neg hne]
      simp only [getSeg, hki']
      exact List.get?_set_ne v xs (fun he => hij he.symm)

/-- Every value read out of a string is that string, a single character, or
a number (the `length` property). -/
theorem getPath_str_shape (q : List Seg) :
    ∀ (x : String) (v : JVal), getPath (.str x) q = some v →
      (q = [] ∧ v = .str x) ∨ (∃ c, v = .str (String.singleton c)) ∨ ∃ m : Int, v = .num m := by
  induction q with
  | nil =>
      intro x v h
      injection h with h'
      exact Or.inl ⟨rfl, h'.symm⟩
  | cons k q' ih =>
      intro x v h
      rw [getPath_cons] at h
      rcases hks : getSeg (.str x) k with _ | c
      · rw [hks] at h
        exact Option.noConfusion h
      · rw [hks] at h
        have hw : (∃ ch, c = .str (String.singleton ch)) ∨ ∃ m : Int, c = .num m := by
          simp only [getSeg] at hks
          split at hks
          · rcases hg : x.toList.get? _ with _ | ch
            · rw [hg] at hks
              exact Option.noConfusion hks
            · rw [hg] at hks
              injection hks with hks'
              exact Or.inl ⟨ch, hks'.symm⟩
          · split at hks
            · injection hks with hks'
              exact Or.inr ⟨_, hks'.symm⟩
            · exact Option.noConfusion hks
        rcases hw with ⟨ch, rfl⟩ | ⟨m, rfl⟩
        · rcases ih (String.singleton ch) v h with ⟨_, rfl⟩ | h2 | h3
          · exact Or.inr (Or.inl ⟨ch, rfl⟩)
          · exact Or.inr (Or.inl h2)
          · exact Or.inr (Or.inr h3)
        · cases q' with
          | nil =>
              injection h with h'
              exact Or.inr (Or.inr ⟨m, h'.symm⟩)
          | cons k2 q'' =>
              simp [getPath_cons, getSeg] at h

theorem singleton_length (c : Char) : (String.singleton c).length = 1 := rfl

/-- A string of length at least 2 is not reachable by reading through a
string leaf. -/
theorem getPath_str_len {x : String} {q : List Seg} {t : String}
    (hq : q ≠ []) (h : getPath (.str x) q = some (.str t)) : t.length = 1 := by
  rcases getPath_str_shape q x (.str t) h with ⟨he, _⟩ | ⟨c, hc⟩ | ⟨m, hm⟩
  · exact absurd he hq
  · injection hc with hc'
    rw [hc']
    exact singleton_length c
  · exact JVal.noConfusion hm

/-- Reading through a string leaf never yields an array. -/
def arrLen : Option JVal → Option Nat
  | some (.arr xs) => some xs.length
  | _ => none

theorem arrLen_getPath_str (x : String) (q : List Seg) :
    arrLen (getPath (.str x) q) = none := by
  rcases hg : getPath (.str x) q with _ | v
  · rfl
  · rcases getPath_str_shape q x v hg with ⟨_, rfl⟩ | ⟨c, rfl⟩ | ⟨m, rfl⟩ <;> rfl

/-- No string value can be read out of a freshly created empty container. -/
theorem getPath_newContainer_no_str (k2 : Seg) (q : List Seg) (t : String) :
    getPath (newContainer k2) q ≠ some (.str t) := by
  intro h
  cases k2 with
  | str s2 =>
      cases q with
      | nil =>
          injection h with h'
          exact JVal.noConfusion h'
      | cons k q' =>
          rw [getPath_cons] at h
          simp [getSeg, newContainer, lookupA] at h
  | num n2 =>
      cases q with
      | nil =>
          injection h with h'
          exact JVal.noConfusion h'
      | cons k q' =>
          rw [getPath_cons] at h
          simp only [newContainer, getSeg] at h
          rcases hki : keyIndex k.key with _ | i
          · rw [hki] at h
            by_cases hl : k.key = "length"
            · rw [if_pos hl] at h
              cases q' with
              | nil =>
                  injection h with h'
                  exact JVal.noConfusion h'
              | cons k3 q'' =>
                  simp [getPath_cons, getSeg] at h
            · rw [if_neg hl] at h
              exact Option.noConfusion h
          · rw [hki] at h
            exact Option.noConfusion h

/-- The intermediate container `set` steps into (existing child, or a fresh
container when the current value is null/undefined). -/
def childOf (d : JVal) (k k2 : Seg) : JVal :=
  match getSeg d k with
  | none => newContainer k2
  | some .null => newContainer k2
  | some c => c

theorem setPath_cons_cons (d : JVal) (k k2 : Seg) (ks : List Seg) (v : JVal) :
    setPath d (k :: k2 :: ks) v = setSeg d k (setPath (childOf d k k2) (k2 :: ks) v) := rfl

theorem childOf_eq_of_ne_null {d : JVal} {k k2 : Seg} {c : JVal}
    (hc : getSeg d k = some c) (hnn : c ≠ .null) : childOf d k k2 = c := by
  simp only [childOf, hc]

theorem childOf_eq_newContainer {d : JVal} {k k2 : Seg}
    (h : getSeg d k = none ∨ getSeg d k = some .null) : childOf d k k2 = newContainer k2 := by
  rcases h with h | h <;> simp [childOf, h]

theorem getPath_single {d : JVal} {k : Seg} {v : JVal}
    (h : getPath d [k] = some v) : getSeg d k = some v := by
  rw [getPath_cons] at h
  rcases hg : getSeg d k with _ | c
  · rw [hg] at h
    exact Option.noConfusion h
  · rw [hg] at h
    cases c <;> exact h

theorem getPath_cons_resolve {d : JVal} {k : Seg} {q : List Seg} {v : JVal} (hq : q ≠ [])
    (h : getPath d (k :: q) = some v) :
    ∃ c, getSeg d k = some c ∧ c ≠ .null ∧ getPath c q = some v := by
  rw [getPath_cons] at h
  rcases hg : getSeg d k with _ | c
  · rw [hg] at h
    exact Option.noConfusion h
  · rw [hg] at h
    refine ⟨c, rfl, ?_, h⟩
    intro hc
    subst hc
    cases q with
    | nil => exact hq rfl
    | cons a b => simp [getPath] at h

theorem getSeg_str_cases {x : String} {k : Seg} {c : JVal} (h : getSeg (.str x) k = some c) :
    (∃ ch, c = .str (String.singleton ch)) ∨ ∃ m : Int, c = .num m := by
  simp only [getSeg] at h
  rcases hki : keyIndex k.key with _ | i
  · rw [hki] at h
    by_cases hl : k.key = "length"
    · rw [if_pos hl] at h
      injection h with h'
      exact Or.inr ⟨_, h'.symm⟩
    · rw [if_neg hl] at h
      exact Option.noConfusion h
  · rw [hki] at h
    have h' : Option.map (fun ch => JVal.str (String.singleton ch)) (x.toList.get? i)
        = some c := h
    rcases hx : x.toList.get? i with _ | ch
    · rw [hx] at h'
      exact Option.noConfusion h'
    · rw [hx] at h'
      have h2 : some (JVal.str (String.singleton ch)) = some c := h'
      injection h2 with h3
      exact Or.inl ⟨ch, h3.symm⟩

theorem getSeg_arr_cases {xs : List JVal} {k : Seg} {c : JVal} (h : getSeg (.arr xs) k = some c) :
    (∃ i, keyIndex k.key = some i ∧ xs.get? i = some c) ∨ ∃ m : Int, c = .num m := by
  simp only [getSeg] at h
  rcases hki : keyIndex k.key with _ | i
  · rw [hki] at h
    by_cases hl : k.key = "length"
    · rw [if_pos hl] at h
      injection h with h'
      exact Or.inr ⟨_, h'.symm⟩
    · rw [if_neg hl] at h
      exact Option.noConfusion h
  · rw [hki] at h
    exact Or.inl ⟨i, rfl, h⟩

theorem getPath_num_no_str (m : Int) (q : List Seg) (t : String) :
    getPath (.num m) q ≠ some (.str t) := by
  cases q with
  | nil =>
      intro h
      injection h with h'
      exact JVal.noConfusion h'
  | cons a b =>
      intro h
      rw [getPath_cons] at h
      simp [getSeg] at h

/-- Frame property of `set` with a string leaf: every string readable after
the write is the written string at the written key path, an unchanged old
value, or a single character (an index into some string). -/
theorem getPath_setPath_str (w : String) (r : List Seg) :
    ∀ (d : JVal) (q : List Seg) (t : String),
      getPath (setPath d r (.str w)) q = some (.str t) →
      (q.map Seg.key = r.map Seg.key ∧ t = w)
      ∨ getPath d q = some (.str t)
      ∨ t.length = 1 := by
  induction r with
  | nil =>
      intro d q t h
      exact Or.inr (Or.inl h)
  | cons k rest ih =>
      intro d q t h
      cases rest with
      | nil =>
          rcases d with _ | b | n | x | xs | kvs
          · exact Or.inr (Or.inl h)
          · exact Or.inr (Or.inl h)
          · exact Or.inr (Or.inl h)
          · exact Or.inr (Or.inl h)
          · -- array leaf write
            rcases hki : keyIndex k.key with _ | i
            · rw [show setPath (.arr xs) [k] (.str w) = .arr xs from by
                    simp [setPath, setSeg, hki]] at h
              exact Or.inr (Or.inl h)
            · cases q with
              | nil =>
                  rw [show setPath (.arr xs) [k] (.str w)
                        = .arr (xs.set i (.str w)) from by simp [setPath, setSeg, hki]] at h
                  injection h with h'
                  exact JVal.noConfusion h'
              | cons k' q' =>
                  rw [getPath_cons,
                      show setPath (.arr xs) [k] (.str w) = setSeg (.arr xs) k (.str w) from rfl,
                      getSeg_setSeg_arr xs k k' _ hki] at h
                  by_cases hk : k'.key = k.key
                  · rw [if_pos hk] at h
                    rcases hx : xs.get? i with _ | el
                    · rw [hx] at h
                      exact Option.noConfusion h
                    · rw [hx] at h
                      have h2 : getPath (JVal.str w) q' = some (JVal.str t) := h
                      cases q' with
                      | nil =>
                          have h3 : (some (JVal.str w) : Option JVal) = some (JVal.str t) := h2
                          injection h3 with h'
                          injection h' with h''
                          exact Or.inl ⟨by simp [hk], h''.symm⟩
                      | cons k'' q'' =>
                          exact Or.inr (Or.inr (getPath_str_len (by simp) h2))
                  · rw [if_neg hk] at h
                    exact Or.inr (Or.inl (by rw [getPath_cons]; exact h))
          · -- object leaf write
            cases q with
            | nil =>
                injection h with h'
                exact JVal.noConfusion h'
            | cons k' q' =>
                rw [getPath_cons,
                    show setPath (.obj kvs) [k] (.str w) = setSeg (.obj kvs) k (.str w) from rfl,
                    getSeg_setSeg_obj] at h
                by_cases hk : k'.key = k.key
                · rw [if_pos hk] at h
                  cases q' with
                  | nil =>
                      injection h with h'
                      injection h' with h''
                      exact Or.inl ⟨by simp [hk], h''.symm⟩
                  | cons k'' q'' =>
                      exact Or.inr (Or.inr (getPath_str_len (by simp) h))
                · rw [if_neg hk] at h
                  exact Or.inr (Or.inl (by rw [getPath_cons]; exact h))
      | cons k2 ks =>
          rcases d with _ | b | n | x | xs | kvs
          · exact Or.inr (Or.inl h)
          · exact Or.inr (Or.inl h)
          · exact Or.inr (Or.inl h)
          · exact Or.inr (Or.inl h)
          · -- array interior write
            rw [setPath_cons_cons] at h
            rcases hki : keyIndex k.key with _ | i
            · simp only [setSeg, hki] at h
              exact Or.inr (Or.inl h)
            · cases q with
              | nil =>
                  simp [getPath, setSeg, hki] at h
              | cons k' q' =>
                  rw [getPath_cons, getSeg_setSeg_arr xs k k' _ hki] at h
                  by_cases hk : k'.key = k.key
                  · rw [if_pos hk] at h
                    rcases hx : xs.get? i with _ | el
                    · rw [hx] at h
                      exact Option.noConfusion h
                    · rw [hx] at h
                      have h2 : getPath (setPath (childOf (JVal.arr xs) k k2) (k2 :: ks)
                          (JVal.str w)) q' = some (JVal.str t) := h
                      rcases ih (childOf (.arr xs) k k2) q' t h2 with ⟨hkeys, ht⟩ | hold | hlen
                      · exact Or.inl ⟨by simp [hkeys, hk], ht⟩
                      · have hgk : getSeg (.arr xs) k = some el := by
                          simp only [getSeg, hki]
                          exact hx
                        by_cases hnn : el = .null
                        · subst hnn
                          rw [childOf_eq_newContainer (Or.inr hgk)] at hold
                          exact absurd hold (getPath_newContainer_no_str k2 q' t)
                        · rw [childOf_eq_of_ne_null hgk hnn] at hold
                          refine Or.inr (Or.inl ?_)
                          rw [getPath_cons]
                          have hgk' : getSeg (.arr xs) k' = some el := by
                            simp only [getSeg, hk, hki]
                            exact hx
                          rw [hgk']
                          exact hold
                      · exact Or.inr (Or.inr hlen)
                  · rw [if_neg hk] at h
                    exact Or.inr (Or.inl (by rw [getPath_cons]; exact h))
          · -- object interior write
            rw [setPath_cons_cons] at h
            cases q with
            | nil =>
                injection h with h'
                exact JVal.noConfusion h'
            | cons k' q' =>
                rw [getPath_cons, getSeg_setSeg_obj] at h
                by_cases hk : k'.key = k.key
                · rw [if_pos hk] at h
                  rcases ih (childOf (.obj kvs) k k2) q' t h with ⟨hkeys, ht⟩ | hold | hlen
                  · exact Or.inl ⟨by simp [hkeys, hk], ht⟩
                  · rcases hc : getSeg (.obj kvs) k with _ | c
                    · rw [childOf_eq_newContainer (Or.inl hc)] at hold
                      exact absurd hold (getPath_newContainer_no_str k2 q' t)
                    · by_cases hnn : c = .null
                      · subst hnn
                        rw [childOf_eq_newContainer (Or.inr hc)] at hold
                        exact absurd hold (getPath_newContainer_no_str k2 q' t)
                      · rw [childOf_eq_of_ne_null hc hnn] at hold
                        refine Or.inr (Or.inl ?_)
                        rw [getPath_cons]
                        have hgk' : getSeg (.obj kvs) k' = some c := by
                          simpa only [getSeg, hk] using hc
                        rw [hgk']
                        exact hold
                  · exact Or.inr (Or.inr hlen)
                · rw [if_neg hk] at h
                  exact Or.inr (Or.inl (by rw [getPath_cons]; exact h))

/-- After writing a string of length ≥ 2 along a resolvable path, reading the
same path returns exactly the written string. -/
theorem getPath_setPath_self (w : String) (r : List Seg) :
    r ≠ [] → ∀ (d : JVal) (s : String), getPath d r = some (.str s) → 2 ≤ s.length →
      getPath (setPath d r (.str w)) r = some (.str w) := by
  induction r with
  | nil => intro hr; exact absurd rfl hr
  | cons k rest ih =>
      intro _ d s h hlen
      cases rest with
      | nil =>
          have hg : getSeg d k = some (.str s) := getPath_single h
          rcases d with _ | b | n | x | xs | kvs
          · exact absurd hg (by simp [getSeg])
          · exact absurd hg (by simp [getSeg])
          · exact absurd hg (by simp [getSeg])
          · exfalso
            rcases getSeg_str_cases hg with ⟨ch, hcs⟩ | ⟨m, hm⟩
            · injection hcs with hc'
              rw [hc', singleton_length] at hlen
              omega
            · exact JVal.noConfusion hm
          · rcases getSeg_arr_cases hg with ⟨i, hki, hx⟩ | ⟨m, hm⟩
            · rw [show setPath (JVal.arr xs) [k] (JVal.str w)
                    = setSeg (JVal.arr xs) k (JVal.str w) from rfl,
                  getPath_cons, getSeg_setSeg_arr xs k k _ hki, if_pos rfl, hx]
              rfl
            · exact JVal.noConfusion hm
          · rw [show setPath (JVal.obj kvs) [k] (JVal.str w)
                  = setSeg (JVal.obj kvs) k (JVal.str w) from rfl,
                getPath_cons, getSeg_setSeg_obj, if_pos rfl]
            rfl
      | cons k2 ks =>
          obtain ⟨c, hgk, hcnn, hc⟩ := getPath_cons_resolve (by simp) h
          rcases d with _ | b | n | x | xs | kvs
          · exact absurd hgk (by simp [getSeg])
          · exact absurd hgk (by simp [getSeg])
          · exact absurd hgk (by simp [getSeg])
          · exfalso
            rcases getSeg_str_cases hgk with ⟨ch, rfl⟩ | ⟨m, rfl⟩
            · have h1 := getPath_str_len (by simp) hc
              omega
            · exact getPath_num_no_str m (k2 :: ks) s hc
          · rcases getSeg_arr_cases hgk with ⟨i, hki, hx⟩ | ⟨m, rfl⟩
            · rw [setPath_cons_cons, getPath_cons, getSeg_setSeg_arr xs k k _ hki,
                  if_pos rfl, hx]
              show getPath (setPath (childOf (JVal.arr xs) k k2) (k2 :: ks) (JVal.str w))
                  (k2 :: ks) = some (JVal.str w)
              rw [childOf_eq_of_ne_null hgk hcnn]
              exact ih (by simp) c s hc hlen
            · exact absurd hc (getPath_num_no_str m (k2 :: ks) s)
          · rw [setPath_cons_cons, getPath_cons, getSeg_setSeg_obj, if_pos rfl]
            show getPath (setPath (childOf (JVal.obj kvs) k k2) (k2 :: ks) (JVal.str w))
                (k2 :: ks) = some (JVal.str w)
            rw [childOf_eq_of_ne_null hgk hcnn]
            exact ih (by simp) c s hc hlen

/-- Overwriting a resolvable path with a string leaf changes no array length
anywhere in the document. -/
theorem arrLen_setPath (w : String) (r : List Seg) :
    r ≠ [] → ∀ (d : JVal) (s : String), getPath d r = some (.str s) → 2 ≤ s.length →
      ∀ q, arrLen (getPath (setPath d r (.str w)) q) = arrLen (getPath d q) := by
  induction r with
  | nil => intro hr; exact absurd rfl hr
  | cons k rest ih =>
      intro _ d s h hlen q
      cases rest with
      | nil =>
          have hg : getSeg d k = some (.str s) := getPath_single h
          rcases d with _ | b | n | x | xs | kvs
          · exact absurd hg (by simp [getSeg])
          · exact absurd hg (by simp [getSeg])
          · exact absurd hg (by simp [getSeg])
          · exfalso
            rcases getSeg_str_cases hg with ⟨ch, hcs⟩ | ⟨m, hm⟩
            · injection hcs with hc'
              rw [hc', singleton_length] at hlen
              omega
            · exact JVal.noConfusion hm
          · rcases getSeg_arr_cases hg with ⟨i, hki, hx⟩ | ⟨m, hm⟩
            · cases q with
              | nil =>
                  show arrLen (getPath (setSeg (JVal.arr xs) k (JVal.str w)) []) = _
                  simp only [setSeg, hki]
                  simp [getPath, arrLen, List.length_set]
              | cons k' q' =>
                  rw [show setPath (JVal.arr xs) [k] (JVal.str w)
                        = setSeg (JVal.arr xs) k (JVal.str w) from rfl,
                      getPath_cons, getSeg_setSeg_arr xs k k' _ hki, getPath_cons]
                  by_cases hk : k'.key = k.key
                  · rw [if_pos hk, hx]
                    have hgk' : getSeg (JVal.arr xs) k' = some (JVal.str s) := by
                      simp only [getSeg, hk, hki]
                      exact hx
                    rw [hgk']
                    show arrLen (getPath (JVal.str w) q') = arrLen (getPath (JVal.str s) q')
                    rw [arrLen_getPath_str, arrLen_getPath_str]
                  · rw [if_neg hk]
            · exact JVal.noConfusion hm
          · cases q with
            | nil =>
                show arrLen (getPath (setSeg (JVal.obj kvs) k (JVal.str w)) []) = _
                simp [getPath, setSeg, arrLen]
            | cons k' q' =>
                rw [show setPath (JVal.obj kvs) [k] (JVal.str w)
                      = setSeg (JVal.obj kvs) k (JVal.str w) from rfl,
                    getPath_cons, getSeg_setSeg_obj, getPath_cons]
                by_cases hk : k'.key = k.key
                · rw [if_pos hk]
                  have hgk' : getSeg (JVal.obj kvs) k' = some (JVal.str s) := by
                    simpa only [getSeg, hk] using hg
                  rw [hgk']
                  show arrLen (getPath (JVal.str w) q') = arrLen (getPath (JVal.str s) q')
                  rw [arrLen_getPath_str, arrLen_getPath_str]
                · rw [if_neg hk]
      | cons k2 ks =>
          obtain ⟨c, hgk, hcnn, hc⟩ := getPath_cons_resolve (by simp) h
          rcases d with _ | b | n | x | xs | kvs
          · exact absurd hgk (by simp [getSeg])
          · exact absurd hgk (by simp [getSeg])
          · exact absurd hgk (by simp [getSeg])
          · exfalso
            rcases getSeg_str_cases hgk with ⟨ch, rfl⟩ | ⟨m, rfl⟩
            · have h1 := getPath_str_len (by simp) hc
              omega
            · exact getPath_num_no_str m (k2 :: ks) s hc
          · rcases getSeg_arr_cases hgk with ⟨i, hki, hx⟩ | ⟨m, rfl⟩
            · have hchild : childOf (JVal.arr xs) k k2 = c :=
                childOf_eq_of_ne_null hgk hcnn
              have ihc := ih (by simp) c s hc hlen
              rw [setPath_cons_cons]
              cases q with
              | nil =>
                  simp only [setSeg, hki]
                  simp [getPath, arrLen, List.length_set]
              | cons k' q' =>
                  rw [getPath_cons, getSeg_setSeg_arr xs k k' _ hki, getPath_cons]
                  by_cases hk : k'.key = k.key
                  · rw [if_pos hk, hx]
                    have hgk' : getSeg (JVal.arr xs) k' = some c := by
                      simp only [getSeg, hk, hki]
                      exact hx
                    rw [hgk']
                    show arrLen (getPath (setPath (childOf (JVal.arr xs) k k2) (k2 :: ks)
                        (JVal.str w)) q') = arrLen (getPath c q')
                    rw [hchild]
                    exact ihc q'
                  · rw [if_neg hk]
            · exact absurd hc (getPath_num_no_str m (k2 :: ks) s)
          · have hchild : childOf (JVal.obj kvs) k k2 = c :=
              childOf_eq_of_ne_null hgk hcnn
            have ihc := ih (by simp) c s hc hlen
            rw [setPath_cons_cons]
            cases q with
            | nil =>
                simp [getPath, setSeg, arrLen]
            | cons k' q' =>
                rw [getPath_cons, getSeg_setSeg_obj, getPath_cons]
                by_cases hk : k'.key = k.key
                · rw [if_pos hk]
                  have hgk' : getSeg (JVal.obj kvs) k' = some c := by
                    simpa only [getSeg, hk] using hgk
                  rw [hgk']
                  show arrLen (getPath (setPath (childOf (JVal.obj kvs) k k2) (k2 :: ks)
                      (JVal.str w)) q') = arrLen (getPath c q')
                  rw [hchild]
                  exact ihc q'
                · rw [if_neg hk]

/-!
## The candidate paths of the patch pass

`collectTargets` filters a candidate list (patterns, wildcard-expanded against
the document) down to the paths holding URL strings.  The candidate list
depends on the document only through array lengths. -/

def allCandidates (d : JVal) : List (List Seg) :=
  KNOWN_PATHS.flatMap (fun p => if Seg.str "*" ∈ p then expandWildcards d p else [p])

/-- The filter of `collectTargets`: the value at the path is a URL string. -/
def urlVal (d : JVal) (q : List Seg) : Bool :=
  match getPath d q with
  | some (.str s) => urlTest s
  | _ => false

theorem mem_collectTargets {d : JVal} {q : List Seg} :
    q ∈ collectTargets d ↔ q ∈ allCandidates d ∧ urlVal d q = true := by
  simp only [collectTargets, allCandidates, List.mem_flatMap, List.mem_filter, urlVal]
  tauto

theorem expandAt_arrLen (d : JVal) (p : List Seg) (i : Nat) :
    expandAt d p i =
      match arrLen (getPath d (p.take i)) with
      | some n => (List.range n).map (fun j => p.take i ++ Seg.num j :: p.drop (i + 1))
      | none => [] := by
  simp only [expandAt]
  rcases hg : getPath d (p.take i) with _ | v
  · rfl
  · cases v <;> rfl

theorem expandWildcards_congr {d d' : JVal}
    (h : ∀ q, arrLen (getPath d' q) = arrLen (getPath d q)) (p : List Seg) :
    expandWildcards d' p = expandWildcards d p := by
  simp only [expandWildcards]
  cases hfi : p.findIdx? (· == Seg.str "*") with
  | none => rfl
  | some i =>
      show expandAt d' p i = expandAt d p i
      rw [expandAt_arrLen, expandAt_arrLen, h (p.take i)]

theorem allCandidates_congr {d d' : JVal}
    (h : ∀ q, arrLen (getPath d' q) = arrLen (getPath d q)) :
    allCandidates d' = allCandidates d := by
  simp only [allCandidates]
  have hf : (fun p => if Seg.str "*" ∈ p then expandWildcards d' p else [p])
      = (fun p => if Seg.str "*" ∈ p then expandWildcards d p else [p]) := by
    funext p
    by_cases hw : Seg.str "*" ∈ p
    · rw [if_pos hw, if_pos hw, expandWildcards_congr h p]
    · rw [if_neg hw, if_neg hw]
  rw [hf]

theorem mem_expandWildcards_ne_nil {d : JVal} {p q : List Seg} (hp : p ≠ [])
    (h : q ∈ expandWildcards d p) : q ≠ [] := by
  simp only [expandWildcards] at h
  rcases hfi : p.findIdx? (· == Seg.str "*") with _ | i
  · rw [hfi] at h
    have h2 : q ∈ [p] := h
    simp only [List.mem_singleton] at h2
    subst h2
    exact hp
  · rw [hfi] at h
    have h2 : q ∈ expandAt d p i := h
    rw [expandAt_arrLen] at h2
    rcases ha : arrLen (getPath d (p.take i)) with _ | n
    · rw [ha] at h2
      have h3 : q ∈ ([] : List (List Seg)) := h2
      simp at h3
    · rw [ha] at h2
      have h3 : q ∈ (List.range n).map
          (fun j => p.take i ++ Seg.num j :: p.drop (i + 1)) := h2
      simp only [List.mem_map] at h3
      obtain ⟨j, _, rfl⟩ := h3
      intro hcon
      have hl := congrArg List.length hcon
      simp only [List.length_append, List.length_cons, List.length_nil] at hl
      omega

theorem mem_KNOWN_ne_nil : ∀ p ∈ KNOWN_PATHS, p ≠ [] := by
  intro p hp
  fin_cases hp <;> simp

theorem mem_allCandidates_ne_nil {d : JVal} {q : List Seg} (h : q ∈ allCandidates d) :
    q ≠ [] := by
  simp only [allCandidates, List.mem_flatMap] at h
  obtain ⟨p, hp, hq⟩ := h
  by_cases hw : Seg.str "*" ∈ p
  · rw [if_pos hw] at hq
    exact mem_expandWildcards_ne_nil (mem_KNOWN_ne_nil p hp) hq
  · rw [if_neg hw] at hq
    simp only [List.mem_singleton] at hq
    rw [hq]
    exact mem_KNOWN_ne_nil p hp

theorem isPrefixOf_length {α : Type} [BEq α] {l l' : List α}
    (h : l.isPrefixOf l' = true) : l.length ≤ l'.length := by
  induction l generalizing l' with
  | nil => simp
  | cons a as ihp =>
      cases l' with
      | nil => simp [List.isPrefixOf] at h
      | cons b bs =>
          simp only [List.isPrefixOf, Bool.and_eq_true] at h
          have := ihp h.2
          simp only [List.length_cons]
          omega

/-- A value passing the URL test starts with `http://` or `https://`, hence
has at least 7 characters. -/
theorem urlTest_length {s : String} (h : urlTest s = true) : 7 ≤ s.length := by
  have hlen : s.toList.length = s.length := rfl
  simp only [urlTest, Bool.or_eq_true] at h
  rcases h with h | h
  · have h1 := isPrefixOf_length h
    have h2 : ("http://".toList).length = 7 := rfl
    omega
  · have h1 := isPrefixOf_length h
    have h2 : ("https://".toList).length = 8 := rfl
    omega

/-!
## File system model and the backup/restore transaction

Files are a finite association list from path strings to contents.  Only file
contents matter to the claims; directories (`fs.mkdir`) are not modelled.
-/

/-- File contents: raw bytes/text, or the pretty-printed serialization
`JSON.stringify(j, null, 2) + "\n"` of a JSON document as produced by
`writeJSON` (source lines 184-187) and `maybeToggleConfigToLocal` (line 203),
or the same serialization without the trailing newline as written by the SDK
variant's `updateManifest` (line 439). -/
inductive Content where
  | raw (s : String)
  | jsonPretty (j : JVal)
  | jsonPlain (j : JVal)

/-- `JSON.parse` on modelled contents: a serialized document parses back to
the document; `raw` contents model bytes that fail to parse. -/
def parseContent : Content → Option JVal
  | .raw _ => none
  | .jsonPretty j => some j
  | .jsonPlain j => some j

/-- The file system. -/
abbrev FS := List (String × Content)

/-- `fs.readFile`: `none` models the thrown ENOENT. -/
def readFS : FS → String → Option Content
  | [], _ => none
  | (q, c) :: rest, p => if q = p then some c else readFS rest p

/-- `fs.writeFile`: overwrite or create. -/
def writeFS : FS → String → Content → FS
  | [], p, c => [(p, c)]
  | (q, c') :: rest, p, c => if q = p then (q, c) :: rest else (q, c') :: writeFS rest p c

/-- `fs.unlink`: remove the file. -/
def unlinkFS : FS → String → FS
  | [], _ => []
  | (q, c) :: rest, p => if q = p then unlinkFS rest p else (q, c) :: unlinkFS rest p

theorem readFS_writeFS_self (fs : FS) (p : String) (c : Content) :
    readFS (writeFS fs p c) p = some c := by
  induction fs with
  | nil => simp [writeFS, readFS]
  | cons e rest ih =>
      obtain ⟨q, c'⟩ := e
      by_cases h : q = p
      · simp [writeFS, readFS, h]
      · simp [writeFS, readFS, h, ih]

theorem readFS_writeFS_ne (fs : FS) {p q : String} (c : Content) (h : q ≠ p) :
    readFS (writeFS fs p c) q = readFS fs q := by
  induction fs with
  | nil => simp [writeFS, readFS, Ne.symm h]
  | cons e rest ih =>
      obtain ⟨r, c'⟩ := e
      by_cases hr : r = p
      · subst hr
        simp [writeFS, readFS, Ne.symm h]
      · simp [writeFS, readFS, hr, ih]

theorem readFS_unlinkFS_self (fs : FS) (p : String) :
    readFS (unlinkFS fs p) p = none := by
  induction fs with
  | nil => simp [unlinkFS, readFS]
  | cons e rest ih =>
      obtain ⟨q, c⟩ := e
      by_cases h : q = p
      · simp [unlinkFS, h, ih]
      · simp [unlinkFS, readFS, h, ih]

theorem readFS_unlinkFS_ne (fs : FS) {p q : String} (h : q ≠ p) :
    readFS (unlinkFS fs p) q = readFS fs q := by
  induction fs with
  | nil => simp [unlinkFS, readFS]
  | cons e rest ih =>
      obtain ⟨r, c⟩ := e
      by_cases hr : r = p
      · subst hr
        simp [unlinkFS, readFS, Ne.symm h, ih]
      · simp [unlinkFS, readFS, hr, ih]

/-- `restoreFile(backupPath, targetPath)` (source lines 211-220): return early
when either argument is `undefined` or an empty string (falsy); otherwise read
the backup, write its bytes to the target, then unlink the backup (a failed
unlink is ignored by `.catch(() => {})`).  A failed backup read is swallowed
by the `catch {}`, so the function is total: it never raises. -/
def restoreFile (backupPath targetPath : Option String) (fs : FS) : FS :=
  match backupPath, targetPath with
  | some b, some t =>
      if b = "" ∨ t = "" then fs
      else
        match readFS fs b with
        | none => fs
        | some raw => unlinkFS (writeFS fs t raw) b
  | _, _ => fs

/-- The manifest backup block of `main` (source lines 316-321): read the
target; on success write the backup copy (the `mkdir` of the unused temp dir
is not a file-content effect); if the read fails because the target does not
exist, the `catch {}` swallows the error and nothing is recorded. -/
def backupFile (fs : FS) (targetPath backupPath : String) : FS :=
  match readFS fs targetPath with
  | none => fs
  | some raw => writeFS fs backupPath raw

/-- `${manifestPath}.backup` (source line 229). -/
def backupPathOf (p : String) : String := p ++ ".backup"

theorem backupPathOf_ne (p : String) : backupPathOf p ≠ p := by
  intro h
  have hlen := congrArg String.length h
  rw [backupPathOf, String.length_append] at hlen
  have h7 : (".backup" : String).length = 7 := rfl
  omega

theorem backupPathOf_ne_empty (p : String) : backupPathOf p ≠ "" := by
  intro h
  have hlen := congrArg String.length h
  rw [backupPathOf, String.length_append] at hlen
  have h7 : (".backup" : String).length = 7 := rfl
  have h0 : ("" : String).length = 0 := rfl
  omega

/-- Claim C3, counterexample: `backup` of a path whose file does not exist
records nothing at all (the read fails and the `catch {}` swallows it), and a
later `restore` does **not** delete a file created at the path in between —
the file survives with its content.  Here the path is `manifest.json`,
initially absent with no stale backup. -/
theorem C3_counterexample_restore_does_not_delete :
    restoreFile (some (backupPathOf "manifest.json")) (some "manifest.json")
        (writeFS (backupFile [] "manifest.json" (backupPathOf "manifest.json"))
          "manifest.json" (Content.raw "created-between"))
      = [("manifest.json", Content.raw "created-between")] := rfl

/-- Claim C3, amended: for every path whose file does not exist when `backup`
runs (and with no stale backup artifact present), no record of any kind is
created — the file system is left unchanged — and a later `restore` is a
no-op: a file created at the path between backup and restore is left in
place, not deleted. -/
theorem C3_backup_missing_then_restore_noop (fs : FS) (p : String) (c : Content)
    (hmiss : readFS fs p = none) (hnob : readFS fs (backupPathOf p) = none) :
    backupFile fs p (backupPathOf p) = fs
    ∧ restoreFile (some (backupPathOf p)) (some p) (writeFS fs p c) = writeFS fs p c := by
  have hb : backupFile fs p (backupPathOf p) = fs := by
    unfold backupFile
    rw [hmiss]
  refine ⟨hb, ?_⟩
  simp only [restoreFile]
  by_cases hp : p = ""
  · rw [if_pos (Or.inr hp)]
  · rw [if_neg (by simp [backupPathOf_ne_empty, hp])]
    rw [readFS_writeFS_ne fs c (backupPathOf_ne p), hnob]

/-- Witness for the amended C3 at a concrete path and file system. -/
theorem C3_backup_missing_then_restore_noop_witness :
    backupFile [] "manifest.json" (backupPathOf "manifest.json") = []
    ∧ restoreFile (some (backupPathOf "manifest.json")) (some "manifest.json")
        (writeFS [] "manifest.json" (Content.raw "x"))
      = writeFS [] "manifest.json" (Content.raw "x") :=
  C3_backup_missing_then_restore_noop [] "manifest.json" (Content.raw "x") rfl rfl

/-- Claim C8, counterexample: `backup` then `restore` is **not** always
identity on the target path.  If the target file is absent but a stale
artifact occupies the backup location, `backup` records nothing (read of the
missing target fails) and `restore` then writes the stale bytes to the
target, creating a file where none existed before. -/
theorem C8_counterexample_stale_backup :
    readFS [(backupPathOf "m", Content.raw "stale")] "m" = none
    ∧ restoreFile (some (backupPathOf "m")) (some "m")
        (backupFile [(backupPathOf "m", Content.raw "stale")] "m" (backupPathOf "m"))
      = [("m", Content.raw "stale")]
    ∧ readFS [("m", Content.raw "stale")] "m" = some (Content.raw "stale") :=
  ⟨rfl, rfl, rfl⟩

/-- Claim C8, amended: for every (nonempty) file path whose file exists when
`backup` is called — or, when it does not exist, with no stale artifact at
the backup location — `backup(path)` then `restore(path)` with no external
modification in between leaves the file at the path bit-for-bit identical to
its content before `backup`, and the backup artifact is removed. -/
theorem C8_backup_restore_roundtrip (fs : FS) (p : String) (hp : p ≠ "")
    (h : readFS fs p ≠ none ∨ readFS fs (backupPathOf p) = none) :
    readFS (restoreFile (some (backupPathOf p)) (some p)
        (backupFile fs p (backupPathOf p))) p = readFS fs p
    ∧ readFS (restoreFile (some (backupPathOf p)) (some p)
        (backupFile fs p (backupPathOf p))) (backupPathOf p) = none := by
  rcases hread : readFS fs p with _ | c
  · have hnob : readFS fs (backupPathOf p) = none := by
      rcases h with h | h
      · exact absurd hread h
      · exact h
    have hb : backupFile fs p (backupPathOf p) = fs := by
      unfold backupFile
      rw [hread]
    have hr : restoreFile (some (backupPathOf p)) (some p) fs = fs := by
      simp only [restoreFile]
      rw [if_neg (by simp [backupPathOf_ne_empty, hp]), hnob]
    rw [hb, hr, hread]
    exact ⟨rfl, hnob⟩
  · have hb : backupFile fs p (backupPathOf p) = writeFS fs (backupPathOf p) c := by
      unfold backupFile
      rw [hread]
    have hbp : readFS (writeFS fs (backupPathOf p) c) (backupPathOf p) = some c :=
      readFS_writeFS_self fs (backupPathOf p) c
    have hr : restoreFile (some (backupPathOf p)) (some p) (writeFS fs (backupPathOf p) c)
        = unlinkFS (writeFS (writeFS fs (backupPathOf p) c) p c) (backupPathOf p) := by
      simp only [restoreFile]
      rw [if_neg (by simp [backupPathOf_ne_empty, hp]), hbp]
    rw [hb, hr]
    constructor
    · rw [readFS_unlinkFS_ne _ (Ne.symm (backupPathOf_ne p)), readFS_writeFS_self]
    · exact readFS_unlinkFS_self _ _

/-- Witness for the amended C8 at a concrete file system where the file
exists: its bytes survive the round trip and the artifact is gone. -/
theorem C8_backup_restore_roundtrip_witness :
    readFS (restoreFile (some (backupPathOf "m")) (some "m")
        (backupFile [("m", Content.raw "orig")] "m" (backupPathOf "m"))) "m"
      = readFS [("m", Content.raw "orig")] "m"
    ∧ readFS (restoreFile (some (backupPathOf "m")) (some "m")
        (backupFile [("m", Content.raw "orig")] "m" (backupPathOf "m"))) (backupPathOf "m")
      = none :=
  C8_backup_restore_roundtrip [("m", Content.raw "orig")] "m" (by decide)
    (Or.inl (by intro h; exact Option.noConfusion h))

/-- Claim C10: after one successful `restoreFile(backupPath, targetPath)` the
backup file is deleted, so a second call with the same arguments finds no
backup, is swallowed by the `catch`, and returns the file system unchanged —
in particular the restored target is untouched.  `restoreFile` is a total
function here: it never raises (every failure path in the source is caught). -/
theorem C10_restoreFile_idempotent (fs : FS) (b t : String) (c : Content)
    (hb : b ≠ "") (ht : t ≠ "") (hread : readFS fs b = some c) :
    readFS (restoreFile (some b) (some t) fs) b = none
    ∧ restoreFile (some b) (some t) (restoreFile (some b) (some t) fs)
        = restoreFile (some b) (some t) fs := by
  have h1 : restoreFile (some b) (some t) fs = unlinkFS (writeFS fs t c) b := by
    simp only [restoreFile]
    rw [if_neg (by simp [hb, ht]), hread]
  have hgone : readFS (unlinkFS (writeFS fs t c) b) b = none := readFS_unlinkFS_self _ _
  refine ⟨by rw [h1]; exact hgone, ?_⟩
  conv_lhs => rw [h1]
  simp only [restoreFile]
  rw [if_neg (by simp [hb, ht]), hgone, hread, if_neg (by simp [hb, ht])]

/-- Witness for C10 at a concrete file system with a backup present. -/
theorem C10_restoreFile_idempotent_witness :
    readFS (restoreFile (some "m.backup") (some "m")
        [("m.backup", Content.raw "saved")]) "m.backup" = none
    ∧ restoreFile (some "m.backup") (some "m")
        (restoreFile (some "m.backup") (some "m") [("m.backup", Content.raw "saved")])
      = restoreFile (some "m.backup") (some "m") [("m.backup", Content.raw "saved")] :=
  C10_restoreFile_idempotent [("m.backup", Content.raw "saved")] "m.backup" "m"
    (Content.raw "saved") (by decide) (by decide) rfl

/-!
## Orchestration: the slack-local variant (source lines 223-360)

The run is modelled as a pure function over the file system with an oracle
for the two external processes (the ngrok tunnel and `slack run`).  External
effects are recorded in a trace; stdout writes are not effects.  Path
resolution keeps paths as written, with the project root elided
(`path.join(root, "config.json")` is `config.json`, etc.). -/

/-- An external effect: a file write, unlink, directory creation, subprocess
spawn or kill, or (for the SDK variant) opening/closing the tunnel session. -/
inductive Eff where
  | write (p : String) (c : Content)
  | unlink (p : String)
  | mkdirp (p : String)
  | spawn (cmd : String) (args : List String)
  | kill (cmd : String)
  | connectTunnel
  | closeTunnel

/-- Number of file writes in a trace. -/
def countWrites : List Eff → Nat
  | [] => 0
  | .write _ _ :: r => countWrites r + 1
  | _ :: r => countWrites r

/-- Number of subprocess spawns in a trace. -/
def countSpawns : List Eff → Nat
  | [] => 0
  | .spawn _ _ :: r => countSpawns r + 1
  | _ :: r => countSpawns r

/-- Run configuration with the defaults of `parseArgs` (source lines 23-30).
`port` is the result of the JavaScript `Number(...)` coercion, with NaN
modelled as `none`. -/
structure Args where
  port : Option Int := some 3000
  manifest : String := "./manifest.json"
  dryRun : Bool := false
  persist : Bool := false
  json : Bool := false
  verbose : Bool := false
deriving DecidableEq, Repr

/-- `Number(s)` restricted to decimal numerals (all this script passes);
other strings are modelled as NaN (`none`). -/
def jsNumber (s : String) : Option Int :=
  match natOfDigits s.toList with
  | some n => some (Int.ofNat n)
  | none => none

/-- `String(port)` for the ngrok argument list. -/
def portString : Option Int → String
  | some i => toString i
  | none => "NaN"

/-- The argument loop of `parseArgs` (source lines 31-42): flags set fields,
`--port`/`--manifest` consume the following argument (`Number(undefined)` is
NaN; a trailing `--manifest` leaves an undefined manifest path, never
exercised and modelled as keeping the default), unknown arguments are
ignored. -/
def parseLoop : List String → Args → Args
  | [], a => a
  | "--dry-run" :: rest, a => parseLoop rest { a with dryRun := true }
  | "--persist" :: rest, a => parseLoop rest { a with persist := true }
  | "--json" :: rest, a => parseLoop rest { a with json := true }
  | "--verbose" :: rest, a => parseLoop rest { a with verbose := true }
  | ["--port"], a => { a with port := none }
  | "--port" :: v :: rest, a => parseLoop rest { a with port := jsNumber v }
  | ["--manifest"], a => a
  | "--manifest" :: v :: rest, a => parseLoop rest { a with manifest := v }
  | _ :: rest, a => parseLoop rest a

/-- `parseArgs(argv)` (source lines 22-44): `argv` starts at index 2. -/
def parseArgs (argv : List String) : Args := parseLoop (argv.drop 2) {}

/-- JavaScript falsiness of a JSON value (for `!cfg.manifest`, line 199). -/
def jsFalsy : JVal → Bool
  | .null => true
  | .bool b => !b
  | .num n => n == 0
  | .str s => s == ""
  | _ => false

/-- `prev === "local"` where `prev = cfg?.manifest?.source` (line 197-198). -/
def isLocalVal : Option JVal → Bool
  | some (.str s) => s == "local"
  | _ => false

/-- The mutation `if (!cfg.manifest) cfg.manifest = {}` followed by
`cfg.manifest.source = "local"` (source lines 199-200), as it survives
`JSON.stringify(cfg, null, 2)` (line 203):
* a missing or falsy `manifest` member becomes `{ "source": "local" }`;
* an object `manifest` has its `source` member set;
* an array `manifest` (or an array config) accepts the property as an array
  expando in memory, which `JSON.stringify` drops, so the serialized document
  is unchanged;
* a truthy scalar `manifest`, or a scalar/null config, makes the strict-mode
  property assignment throw `TypeError`, caught by the surrounding `catch`
  (modelled as `none`). -/
def toggleLocal : JVal → Option JVal
  | .obj kvs =>
      match lookupA "manifest" kvs with
      | none => some (.obj (updateA "manifest" (.obj [("source", .str "local")]) kvs))
      | some m =>
          if jsFalsy m then
            some (.obj (updateA "manifest" (.obj [("source", .str "local")]) kvs))
          else
            match m with
            | .obj mkvs =>
                some (.obj (updateA "manifest" (.obj (updateA "source" (.str "local") mkvs)) kvs))
            | .arr _ => some (.obj kvs)
            | _ => none
  | .arr xs => some (.arr xs)
  | _ => none

/-- `maybeToggleConfigToLocal(projectRoot)` (source lines 190-209): read and
parse `config.json` (any failure is swallowed: `changed: false`, no effect);
if `manifest.source` is already `"local"`, no effect; otherwise write the raw
original to `config.json.backup` and the toggled document to `config.json`.
Returns `(changed, backupPath, fs, effects)`. -/
def maybeToggle (fs : FS) : Bool × Option String × FS × List Eff :=
  match readFS fs "config.json" with
  | none => (false, none, fs, [])
  | some raw =>
      match parseContent raw with
      | none => (false, none, fs, [])
      | some cfg =>
          if isLocalVal (getPath cfg [.str "manifest", .str "source"]) then
            (false, none, fs, [])
          else
            match toggleLocal cfg with
            | none => (false, none, fs, [])
            | some cfg' =>
                (true, some "config.json.backup",
                  writeFS (writeFS fs "config.json.backup" raw) "config.json" (.jsonPretty cfg'),
                  [.write "config.json.backup" raw, .write "config.json" (.jsonPretty cfg')])

/-- `restoreFile` (source lines 211-220) together with its effect trace. -/
def restoreFileE (backupPath targetPath : Option String) (fs : FS) : FS × List Eff :=
  match backupPath, targetPath with
  | some b, some t =>
      if b = "" ∨ t = "" then (fs, [])
      else
        match readFS fs b with
        | none => (fs, [])
        | some raw => (unlinkFS (writeFS fs t raw) b, [.write t raw, .unlink b])
  | _, _ => (fs, [])

/-- An Edit of the patch pass: resolved path, previous and new value. -/
structure Edit where
  path : List Seg
  old : String
  new : String

/-- One iteration of the patch loop (source lines 284-292) at one collected
target path: read the current value; if it is a string, rewrite its origin,
and when the result differs write it back and record the patched key. -/
def patchStep (origin : String) (acc : JVal × List Edit) (p : List Seg) : JVal × List Edit :=
  match getPath acc.1 p with
  | some (.str s) =>
      if replaceOrigin s origin ≠ s then
        (setPath acc.1 p (.str (replaceOrigin s origin)), acc.2 ++ [⟨p, s, replaceOrigin s origin⟩])
      else acc
  | _ => acc

/-- The patch pass of `main` (source lines 283-293): collect the targets of
the document, then fold the patch loop over them, mutating in place. -/
def applyPatch (d : JVal) (origin : String) : JVal × List Edit :=
  (collectTargets d).foldl (patchStep origin) (d, [])

/-- The edit list of the patch pass — the spec's `plan(document, origin)`. -/
def plan (d : JVal) (origin : String) : List Edit := (applyPatch d origin).2

/-!
## The patch pass reaches a fixed point (claim C7)

Invariants of the fold: `Prov` — every string readable from the current
document is an original value, a stable rewritten value, or a single
character; `PStable` — every string readable at a given path needs no further
rewrite; `ArrEq` — the current document has the original array lengths
everywhere. -/

def Prov (d0 cur : JVal) (origin : String) : Prop :=
  ∀ q t, getPath cur q = some (.str t) →
    getPath d0 q = some (.str t) ∨ replaceOrigin t origin = t ∨ t.length = 1

def PStable (cur : JVal) (origin : String) (q : List Seg) : Prop :=
  ∀ t, getPath cur q = some (.str t) → replaceOrigin t origin = t ∨ t.length = 1

def ArrEq (d0 cur : JVal) : Prop :=
  ∀ q, arrLen (getPath cur q) = arrLen (getPath d0 q)

/-- `patchStep` either leaves the state unchanged (and the value at the path,
if it is a string, is already stable) or overwrites an unstable URL string in
place and records the edit. -/
theorem patchStep_cases (origin : String) (acc : JVal × List Edit) (p : List Seg) :
    (patchStep origin acc p = acc ∧
      ∀ t, getPath acc.1 p = some (.str t) → replaceOrigin t origin = t) ∨
    ∃ s, getPath acc.1 p = some (.str s) ∧ replaceOrigin s origin ≠ s ∧
      patchStep origin acc p =
        (setPath acc.1 p (.str (replaceOrigin s origin)),
          acc.2 ++ [⟨p, s, replaceOrigin s origin⟩]) := by
  simp only [patchStep]
  split
  · rename_i s heq
    split
    · rename_i hne
      exact Or.inr ⟨s, heq, hne, rfl⟩
    · rename_i hne
      refine Or.inl ⟨rfl, ?_⟩
      intro t ht
      rw [heq] at ht
      injection ht with ht'
      injection ht' with ht''
      rw [← ht'']
      exact of_not_not hne
  · rename_i hno
    refine Or.inl ⟨rfl, ?_⟩
    intro t ht
    exact absurd ht (hno t)

theorem Prov_patchStep (d0 cur : JVal) (origin : String) (acc2 : List Edit) (p : List Seg)
    (hp : Prov d0 cur origin) : Prov d0 (patchStep origin (cur, acc2) p).1 origin := by
  rcases patchStep_cases origin (cur, acc2) p with ⟨he, _⟩ | ⟨s, hg, hne, he⟩
  · rw [he]
    exact hp
  · rw [he]
    intro q t hq
    rcases getPath_setPath_str _ p cur q t hq with ⟨_, rfl⟩ | hold | hlen
    · exact Or.inr (Or.inl (replaceOrigin_stable s origin))
    · exact hp q t hold
    · exact Or.inr (Or.inr hlen)

theorem PStable_patchStep (cur : JVal) (origin : String) (acc2 : List Edit) (p q : List Seg)
    (hp : PStable cur origin q) : PStable (patchStep origin (cur, acc2) p).1 origin q := by
  rcases patchStep_cases origin (cur, acc2) p with ⟨he, _⟩ | ⟨s, hg, hne, he⟩
  · rw [he]
    exact hp
  · rw [he]
    intro t hq
    rcases getPath_setPath_str _ p cur q t hq with ⟨_, rfl⟩ | hold | hlen
    · exact Or.inl (replaceOrigin_stable s origin)
    · exact hp t hold
    · exact Or.inr hlen

theorem PStable_patchStep_self (cur : JVal) (origin : String) (acc2 : List Edit)
    (p : List Seg) (hp : p ≠ []) : PStable (patchStep origin (cur, acc2) p).1 origin p := by
  rcases patchStep_cases origin (cur, acc2) p with ⟨he, hst⟩ | ⟨s, hg, hne, he⟩
  · rw [he]
    intro t hq
    exact Or.inl (hst t hq)
  · rw [he]
    intro t hq
    have hself := getPath_setPath_self (replaceOrigin s origin) p hp cur s hg
      (replaceOrigin_changed_length hne)
    rw [hself] at hq
    injection hq with hq'
    injection hq' with hq''
    rw [← hq'']
    exact Or.inl (replaceOrigin_stable s origin)

theorem ArrEq_patchStep (d0 cur : JVal) (origin : String) (acc2 : List Edit) (p : List Seg)
    (hp : p ≠ []) (ha : ArrEq d0 cur) : ArrEq d0 (patchStep origin (cur, acc2) p).1 := by
  rcases patchStep_cases origin (cur, acc2) p with ⟨he, _⟩ | ⟨s, hg, hne, he⟩
  · rw [he]
    exact ha
  · rw [he]
    intro q
    rw [arrLen_setPath (replaceOrigin s origin) p hp cur s hg
      (replaceOrigin_changed_length hne) q]
    exact ha q

/-- Invariants of the whole patch fold: provenance and array shape are
preserved, every processed path ends stable, and stability of any path is
preserved. -/
theorem foldl_patch_invariant (d0 : JVal) (origin : String) :
    ∀ (L : List (List Seg)) (cur : JVal) (acc2 : List Edit),
      (∀ p ∈ L, p ≠ []) → Prov d0 cur origin → ArrEq d0 cur →
      Prov d0 (L.foldl (patchStep origin) (cur, acc2)).1 origin ∧
      ArrEq d0 (L.foldl (patchStep origin) (cur, acc2)).1 ∧
      (∀ q ∈ L, PStable (L.foldl (patchStep origin) (cur, acc2)).1 origin q) ∧
      (∀ q, PStable cur origin q →
        PStable (L.foldl (patchStep origin) (cur, acc2)).1 origin q) := by
  intro L
  induction L with
  | nil =>
      intro cur acc2 _ hprov harr
      exact ⟨hprov, harr, fun q hq => absurd hq (List.not_mem_nil q), fun q hq => hq⟩
  | cons p L ihL =>
      intro cur acc2 hne hprov harr
      simp only [List.foldl_cons]
      have hpne : p ≠ [] := hne p (List.mem_cons_self p L)
      rcases hps : patchStep origin (cur, acc2) p with ⟨cur2, acc3⟩
      have hprov2 : Prov d0 cur2 origin := by
        have := Prov_patchStep d0 cur origin acc2 p hprov
        rwa [hps] at this
      have harr2 : ArrEq d0 cur2 := by
        have := ArrEq_patchStep d0 cur origin acc2 p hpne harr
        rwa [hps] at this
      obtain ⟨h1, h2, h3, h4⟩ :=
        ihL cur2 acc3 (fun q hq => hne q (List.mem_cons_of_mem p hq)) hprov2 harr2
      refine ⟨h1, h2, ?_, ?_⟩
      · intro q hq
        rcases List.mem_cons.mp hq with rfl | hqL
        · apply h4
          have := PStable_patchStep_self cur origin acc2 q hpne
          rwa [hps] at this
        · exact h3 q hqL
      · intro q hq
        apply h4
        have := PStable_patchStep cur origin acc2 p q hq
        rwa [hps] at this

/-- When every target value is already stable, the patch fold is the
identity. -/
theorem foldl_patch_id (origin : String) (dF : JVal) :
    ∀ (L : List (List Seg)) (acc2 : List Edit),
      (∀ q ∈ L, ∀ t, getPath dF q = some (.str t) → replaceOrigin t origin = t) →
      L.foldl (patchStep origin) (dF, acc2) = (dF, acc2) := by
  intro L
  induction L with
  | nil =>
      intro acc2 _
      rfl
  | cons p L ihL =>
      intro acc2 hst
      simp only [List.foldl_cons]
      have hid : patchStep origin (dF, acc2) p = (dF, acc2) := by
        rcases patchStep_cases origin (dF, acc2) p with ⟨he, _⟩ | ⟨s, hg, hne, _⟩
        · exact he
        · exact absurd (hst p (List.mem_cons_self p L) s hg) hne
      rw [hid]
      exact ihL acc2 (fun q hq => hst q (List.mem_cons_of_mem p hq))

/-- Every edit appended by the fold records an actual change. -/
theorem foldl_patch_edits (origin : String) :
    ∀ (L : List (List Seg)) (cur : JVal) (acc2 : List Edit),
      (∀ e ∈ acc2, e.old ≠ e.new) →
      ∀ e ∈ (L.foldl (patchStep origin) (cur, acc2)).2, e.old ≠ e.new := by
  intro L
  induction L with
  | nil =>
      intro cur acc2 hacc
      exact hacc
  | cons p L ihL =>
      intro cur acc2 hacc
      simp only [List.foldl_cons]
      rcases hps : patchStep origin (cur, acc2) p with ⟨cur2, acc3⟩
      apply ihL cur2 acc3
      rcases patchStep_cases origin (cur, acc2) p with ⟨he, _⟩ | ⟨s, hg, hne, he⟩
      · rw [hps] at he
        injection he with he1 he2
        rw [he2]
        exact hacc
      · rw [hps] at he
        injection he with he1 he2
        rw [he2]
        intro e he'
        rcases List.mem_append.mp he' with hmem | hmem
        · exact hacc e hmem
        · simp only [List.mem_singleton] at hmem
          rw [hmem]
          exact fun hc => hne hc.symm

/-- Claim C7: for every JSON document and every origin, every edit produced
by the patch pass has `old ≠ new`, and re-running the pass on the patched
document with the same origin produces an empty edit list — the patch loop
reaches a fixed point after one application. -/
theorem C7_plan_fixed_point (d : JVal) (origin : String) :
    (∀ e ∈ plan d origin, e.old ≠ e.new) ∧ plan (applyPatch d origin).1 origin = [] := by
  have hL0ne : ∀ p ∈ collectTargets d, p ≠ [] :=
    fun p hp => mem_allCandidates_ne_nil (mem_collectTargets.mp hp).1
  constructor
  · simp only [plan, applyPatch]
    exact foldl_patch_edits origin (collectTargets d) d []
      (fun e he => absurd he (List.not_mem_nil e))
  · obtain ⟨hProvF0, hArrF0, hPSt0, _⟩ :=
      foldl_patch_invariant d origin (collectTargets d) d []
        hL0ne (fun q t h => Or.inl h) (fun q => rfl)
    have hProvF : Prov d (applyPatch d origin).1 origin := hProvF0
    have hArrF : ArrEq d (applyPatch d origin).1 := hArrF0
    have hPSt : ∀ q ∈ collectTargets d, PStable (applyPatch d origin).1 origin q := hPSt0
    have hstable : ∀ q ∈ collectTargets (applyPatch d origin).1, ∀ t,
        getPath (applyPatch d origin).1 q = some (.str t) → replaceOrigin t origin = t := by
      intro q hq t ht
      have hmem := mem_collectTargets.mp hq
      have hcand : q ∈ allCandidates d := by
        rw [← allCandidates_congr hArrF]
        exact hmem.1
      have hurl : urlTest t = true := by
        have hv := hmem.2
        simp only [urlVal] at hv
        rw [ht] at hv
        exact hv
      have h7 : 7 ≤ t.length := urlTest_length hurl
      by_cases hq0 : q ∈ collectTargets d
      · rcases hPSt q hq0 t ht with hstab | hlen1
        · exact hstab
        · omega
      · rcases hProvF q t ht with hold | hstab | hlen1
        · exfalso
          apply hq0
          rw [mem_collectTargets]
          refine ⟨hcand, ?_⟩
          simp only [urlVal]
          rw [hold]
          exact hurl
        · exact hstab
        · omega
    have hid : applyPatch (applyPatch d origin).1 origin = ((applyPatch d origin).1, []) :=
      foldl_patch_id origin (applyPatch d origin).1
        (collectTargets (applyPatch d origin).1) [] hstable
    simp only [plan]
    rw [hid]

/-- `patchedKeys`: `p.map(String).join(".")` for each applied edit
(source line 290). -/
def dottedKeys (es : List Edit) : List String :=
  es.map (fun e => String.intercalate "." (e.path.map Seg.key))

/-- `path.dirname`, for the relative paths exercised here: the prefix before
the last `/`, or `.` when there is no slash. -/
def dirname (p : String) : String :=
  match (p.toList.reverse.dropWhile (· ≠ '/')) with
  | [] => "."
  | _ :: tail => if tail.isEmpty then "/" else String.mk tail.reverse

/-- Mutable state of the slack-local `main` relevant to teardown
(source lines 231-235), plus the effect trace and a count of how many times
the body of `cleanup` has executed. -/
structure MainState where
  fs : FS
  trace : List Eff
  ngrokRunning : Bool
  cfgChanged : Bool
  cfgBackupPath : Option String
  cleanupBodyRuns : Nat

/-- `cleanup` (source lines 237-250): under `--persist` return at once;
otherwise restore the manifest from its backup, restore `config.json` if it
was toggled, and SIGTERM the tunnel process if it is still running.  There is
no run-once guard: each invocation executes the body again. -/
def cleanup (args : Args) (manifestPath : String) (st : MainState) : MainState :=
  if args.persist then st
  else
    let ra := restoreFileE (some (backupPathOf manifestPath)) (some manifestPath) st.fs
    let rb :=
      if st.cfgChanged then restoreFileE st.cfgBackupPath (some "config.json") ra.1
      else (ra.1, [])
    let rc := if st.ngrokRunning then [Eff.kill "ngrok"] else []
    { fs := rb.1, trace := st.trace ++ ra.2 ++ rb.2 ++ rc,
      ngrokRunning := false, cfgChanged := st.cfgChanged,
      cfgBackupPath := st.cfgBackupPath, cleanupBodyRuns := st.cleanupBodyRuns + 1 }

/-- Oracle for the slack-local variant's external processes: the public URL
the ngrok API eventually reports (`none`: not reachable before the deadline,
so `getTunnelUrl` rejects) and the `slack run` exit (`none`: the spawn itself
errors, both rejecting the wait). -/
structure FirstOracle where
  tunnelUrl : Option String
  slackExit : Option Int

/-- Result of a slack-local run. -/
structure FirstResult where
  state : MainState
  exitCode : Int
  patchedKeys : List String

/-- The `main` IIFE of the slack-local variant (source lines 223-360) on a
run not interrupted by a signal: toggle the config, read the manifest, start
ngrok and await its URL (skipped under `--dry-run`, which uses the placeholder
URL of line 279), run the patch pass, back up and persist the patched manifest
and spawn `slack run` (all skipped under `--dry-run`), and on every path run
the `finally` cleanup; thrown failures set exit code 1. -/
def firstMain (argv : List String) (fs0 : FS) (orc : FirstOracle) : FirstResult :=
  let args := parseArgs argv
  let manifestPath := args.manifest
  let tg := maybeToggle fs0
  let st1 : MainState := ⟨tg.2.2.1, tg.2.2.2, false, tg.1, tg.2.1, 0⟩
  match (readFS st1.fs manifestPath).bind parseContent with
  | none => ⟨cleanup args manifestPath st1, 1, []⟩
  | some manifest =>
      if args.dryRun then
        ⟨cleanup args manifestPath st1, 0,
          dottedKeys (plan manifest "https://example-tunnel.ngrok-free.app")⟩
      else
        let st2 : MainState := { st1 with
          trace := st1.trace ++ [Eff.spawn "ngrok" ["http", portString args.port, "--log=stdout"]],
          ngrokRunning := true }
        match orc.tunnelUrl with
        | none => ⟨cleanup args manifestPath st2, 1, []⟩
        | some url =>
            let pr := applyPatch manifest url
            let bk :=
              match readFS st2.fs manifestPath with
              | none => (st2.fs, ([] : List Eff))
              | some raw => (writeFS st2.fs (backupPathOf manifestPath) raw,
                  [Eff.mkdirp ".slackdev", Eff.write (backupPathOf manifestPath) raw])
            let st3 : MainState := { st2 with
              fs := writeFS bk.1 manifestPath (.jsonPretty pr.1),
              trace := st2.trace ++ bk.2 ++
                [Eff.mkdirp (dirname manifestPath), Eff.write manifestPath (.jsonPretty pr.1),
                 Eff.spawn "slack" ["run"]] }
            match orc.slackExit with
            | some 0 => ⟨cleanup args manifestPath st3, 0, dottedKeys pr.2⟩
            | _ => ⟨cleanup args manifestPath st3, 1, dottedKeys pr.2⟩

/-- A delivered termination signal. -/
inductive Sig where
  | sigint
  | sigterm

/-- The signal handlers of the slack-local variant (source lines 252-259):
each runs `cleanup` and exits with the conventional code — 130 for SIGINT,
143 for SIGTERM. -/
def firstSignalExit : Sig → Int
  | .sigint => 130
  | .sigterm => 143

/-- A run of the slack-local variant followed by the `process.on("exit")`
hook (source lines 260-262), which invokes `cleanup` once more when the
process exits; neither the hook nor `cleanup` carries a guard. -/
def firstMainWithExitHook (argv : List String) (fs0 : FS) (orc : FirstOracle) : MainState :=
  cleanup (parseArgs argv) (parseArgs argv).manifest (firstMain argv fs0 orc).state

/-!
## Orchestration: the SDK variant (source lines 362-507)
-/

/-- The `handleExit`/`cleanup` guard state of the SDK variant
(source lines 461-463): the `isCleaningUp` flag plus a count of how many
times the `cleanup` body has run. -/
structure GuardState where
  isCleaningUp : Bool
  cleanupRuns : Nat
deriving DecidableEq, Repr

/-- `handleExit` (source lines 465-470): if the guard is set, return;
otherwise set it and run `cleanup`.  It then calls `process.exit(0)`. -/
def handleExit (st : GuardState) : GuardState :=
  if st.isCleaningUp then st
  else { isCleaningUp := true, cleanupRuns := st.cleanupRuns + 1 }

/-- The code `handleExit` passes to `process.exit` (source line 469), for
SIGINT and SIGTERM alike. -/
def handleExitCode : Int := 0

/-- Both signals are routed to `handleExit` (source lines 472-473), so the
exit status after a signal is `handleExitCode`. -/
def secondSignalExit : Sig → Int := fun _ => handleExitCode

/-- The `finally` block of the SDK variant's `main` (source lines 500-504):
it runs `cleanup` when the guard is not set, but does not set the guard. -/
def finallyCleanup (st : GuardState) : GuardState :=
  if st.isCleaningUp then st
  else { st with cleanupRuns := st.cleanupRuns + 1 }

/-- `currentUrl === newUrl` (source line 431) for the possibly-undefined
member read `json.settings.event_subscriptions.request_url`. -/
def strEqVal : Option JVal → String → Bool
  | some (.str s), t => s == t
  | _, _ => false

/-- Property assignment `target.k = v` where `target` is the value at `pref`
(SDK variant, source lines 435-437): reading an absent intermediate or
assigning to `undefined`, `null` or a scalar throws (strict mode), modelled
as `none`; an assignment on an array is an expando that `JSON.stringify`
drops (`setSeg` models it as leaving the array unchanged). -/
def assignAt (json : JVal) (pref : List Seg) (k : Seg) (v : JVal) : Option JVal :=
  match getPath json pref with
  | some (.obj _) => some (setPath json (pref ++ [k]) v)
  | some (.arr _) => some (setPath json (pref ++ [k]) v)
  | _ => none

/-- The three fixed-field assignments of `updateManifest`
(source lines 435-437). -/
def setFixed (json : JVal) (newUrl : String) : Option JVal :=
  (assignAt json [.str "features", .str "slash_commands", .num 0] (.str "url") (.str newUrl)).bind
    fun j1 =>
      (assignAt j1 [.str "settings", .str "event_subscriptions"] (.str "request_url")
          (.str newUrl)).bind
        fun j2 =>
          assignAt j2 [.str "settings", .str "interactivity"] (.str "request_url") (.str newUrl)

/-- `updateManifest(url)` (source lines 421-441): a falsy url reports
not-updated; otherwise read and parse `manifest.json` (failures throw:
`none`), build `${url}/api/slack/events`, read
`settings.event_subscriptions.request_url` (throwing if the chain breaks
off before the last member), skip when unchanged; otherwise perform the three
assignments and write the document back with `JSON.stringify(json, null, 2)`
and no trailing newline.  Returns `(updated, originalContent, fs, effects)`
or `none` when the code throws (caught by `main`). -/
def updateManifest (url : Option String) (fs : FS) :
    Option (Bool × Option Content × FS × List Eff) :=
  match url with
  | none => some (false, none, fs, [])
  | some u =>
      if u = "" then some (false, none, fs, [])
      else
        match readFS fs "manifest.json" with
        | none => none
        | some file =>
            match parseContent file with
            | none => none
            | some json =>
                match getPath json [.str "settings"] with
                | none => none
                | some .null => none
                | some s1 =>
                    match getSeg s1 (.str "event_subscriptions") with
                    | none => none
                    | some .null => none
                    | some s2 =>
                        if strEqVal (getSeg s2 (.str "request_url")) (u ++ "/api/slack/events") then
                          some (false, none, fs, [])
                        else
                          match setFixed json (u ++ "/api/slack/events") with
                          | none => none
                          | some json' =>
                              some (true, some file,
                                writeFS fs "manifest.json" (.jsonPlain json'),
                                [.write "manifest.json" (.jsonPlain json')])

/-- `cleanup(client, manifestWasUpdated)` of the SDK variant
(source lines 443-454): close the tunnel if open; if the manifest was
updated, restore it from the temp copy and remove the temp copy (a missing
temp copy would make the uncaught read rejection escape; none of the modelled
paths reaches that state). -/
def cleanup2 (clientOpen updated : Bool) (fs : FS) : FS × List Eff :=
  let t0 : List Eff := if clientOpen then [.closeTunnel] else []
  if updated then
    match readFS fs ".slack/cache/manifest.temp.json" with
    | some saved =>
        (unlinkFS (writeFS fs "manifest.json" saved) ".slack/cache/manifest.temp.json",
          t0 ++ [.write "manifest.json" saved, .unlink ".slack/cache/manifest.temp.json"])
    | none => (fs, t0)
  else (fs, t0)

/-- Oracle for the SDK variant: the tunnel URL `ngrok.connect`/`client.url()`
yields (`none`: `connect` rejects) and the `pnpm dev` exit code. -/
structure SecondOracle where
  ngrokConnect : Option String
  devExit : Int

/-- Result of an SDK-variant run. -/
structure SecondResult where
  fs : FS
  trace : List Eff
  exitCode : Int
  cleanupBodyRuns : Nat

/-- The SDK variant (source lines 362-507) on a run not interrupted by a
signal.  Module evaluation first checks `NGROK_AUTH_TOKEN` (lines 370-374):
when it is absent the module throws before anything else runs — no file
write, no tunnel, no subprocess — and node exits 1 for the uncaught
exception.  Otherwise `main` runs: connect the tunnel, update the manifest,
back up the original when it changed, spawn `pnpm dev` and wait for its exit
(any exit code resolves the wait), and run the `finally` cleanup.  Errors are
only logged: the exit status stays 0 on every path after startup. -/
def secondScript (token : Option String) (fs0 : FS) (orc : SecondOracle) : SecondResult :=
  match token with
  | none => ⟨fs0, [], 1, 0⟩
  | some _ =>
      match orc.ngrokConnect with
      | none =>
          let cl := cleanup2 false false fs0
          ⟨cl.1, [Eff.connectTunnel] ++ cl.2, 0, 1⟩
      | some url =>
          match updateManifest (some url) fs0 with
          | none =>
              let cl := cleanup2 true false fs0
              ⟨cl.1, [Eff.connectTunnel] ++ cl.2, 0, 1⟩
          | some (updated, orig, fs1, t1) =>
              let bk :=
                if updated then
                  match orig with
                  | some o => (writeFS fs1 ".slack/cache/manifest.temp.json" o,
                      [Eff.write ".slack/cache/manifest.temp.json" o])
                  | none => (fs1, ([] : List Eff))
                else (fs1, [])
              let cl := cleanup2 true updated bk.1
              ⟨cl.1, [Eff.connectTunnel] ++ t1 ++ bk.2 ++ [Eff.spawn "pnpm" ["dev"]] ++ cl.2,
                0, 1⟩

/-!
## Concrete run fixtures
-/

/-- A `config.json` whose `manifest.source` is not `"local"`. -/
def cfgRemote : JVal := .obj [("manifest", .obj [("source", .str "remote")])]

/-- The spec's example manifest: an event-subscription callback URL and one
slash command URL. -/
def maniEx : JVal :=
  .obj [("settings", .obj [("event_subscriptions",
            .obj [("request_url", .str "https://old.example/api/slack/events")])]),
        ("features", .obj [("slash_commands",
            .arr [.obj [("url", .str "https://old.example/cmd")]])])]

/-- A project with the example config and manifest in place. -/
def fsEx : FS := [("config.json", .jsonPretty cfgRemote), ("./manifest.json", .jsonPretty maniEx)]

/-- A manifest carrying all three fields the SDK variant's `updateManifest`
assigns (source lines 435-437), including `settings.interactivity`, so that
`updateManifest` completes without throwing and `pnpm dev` is reached. -/
def maniFull : JVal :=
  .obj [("settings", .obj [
          ("event_subscriptions",
            .obj [("request_url", .str "https://old.example/api/slack/events")]),
          ("interactivity",
            .obj [("request_url", .str "https://old.example/api/slack/events")])]),
        ("features", .obj [("slash_commands",
            .arr [.obj [("url", .str "https://old.example/cmd")]])])]

/-- Oracle for a run whose tunnel never reports a URL. -/
def orcIdle : FirstOracle := ⟨none, none⟩

/-- Oracle for a fully successful run. -/
def orcOk : FirstOracle := ⟨some "https://new.ngrok.app", some 0⟩

/-- Claim C1 (code bug): a `--dry-run` run still performs file-system writes.
`maybeToggleConfigToLocal` runs before the dry-run check (line 266), so with
a `config.json` whose `manifest.source` is not `"local"` the run writes
`config.json.backup` and rewrites `config.json`, and the cleanup then writes
`config.json` back and unlinks the backup — three writes in total — although
the script's own header (line 10: `--dry-run  Print what would happen, change
nothing`) and the claim promise zero writes.  The remainder of the claim
holds on this run: no subprocess is spawned, and the dry-run patch summary
lists exactly the two expected keys of the example manifest. -/
theorem C1_dry_run_still_writes :
    countWrites (firstMain ["node", "dev.tunnel.ts", "--dry-run"] fsEx orcIdle).state.trace = 3
    ∧ countSpawns (firstMain ["node", "dev.tunnel.ts", "--dry-run"] fsEx orcIdle).state.trace = 0
    ∧ (firstMain ["node", "dev.tunnel.ts", "--dry-run"] fsEx orcIdle).patchedKeys
        = ["settings.event_subscriptions.request_url", "features.slash_commands.0.url"]
    ∧ (firstMain ["node", "dev.tunnel.ts", "--dry-run"] fsEx orcIdle).exitCode = 0 :=
  ⟨rfl, rfl, rfl, rfl⟩

/-- Claim C2, counterexample: the slack-local variant performs no token check
at all — its `startNgrok` (source lines 51-62) spawns ngrok regardless ("Let
ngrok fail loudly if not installed/auth'd") and the script reads no
environment variable — so a run in an environment without the tunnel token
still toggles `config.json` (two writes) and spawns the tunnel process,
instead of aborting before any side effect; the run fails only later, when no
tunnel URL appears. -/
theorem C2_counterexample_no_token_check_in_first_variant :
    countWrites (firstMain ["node", "dev.tunnel.ts"] fsEx orcIdle).state.trace = 3
    ∧ countSpawns (firstMain ["node", "dev.tunnel.ts"] fsEx orcIdle).state.trace = 1
    ∧ (firstMain ["node", "dev.tunnel.ts"] fsEx orcIdle).exitCode = 1 :=
  ⟨rfl, rfl, rfl⟩

/-- Claim C2, amended: in the SDK variant the absence of `NGROK_AUTH_TOKEN`
is fatal at module load, before any side effect — no file is written, the
file system is untouched, no tunnel is opened, no subprocess is spawned —
and the process exits non-zero (uncaught exception); the slack-local variant
performs no token check and proceeds with its side effects regardless of
the environment. -/
theorem C2_token_absent_aborts_sdk_variant (fs : FS) (orc : SecondOracle) :
    (secondScript none fs orc).trace = [] ∧ (secondScript none fs orc).fs = fs
    ∧ (secondScript none fs orc).exitCode = 1 := ⟨rfl, rfl, rfl⟩

/-- Claim C4, counterexample: in the SDK variant both SIGINT and SIGTERM are
routed to `handleExit` (source lines 472-473), which calls `process.exit(0)`
(line 469) — the process exits 0 on an interrupt signal, not 130 (and not
143 on terminate). -/
theorem C4_counterexample_sdk_signal_exit_zero :
    secondSignalExit .sigint = 0 ∧ secondSignalExit .sigint ≠ 130
    ∧ secondSignalExit .sigterm ≠ 143 := ⟨rfl, by decide, by decide⟩

/-- Claim C4, amended: the slack-local variant exits as the claim states —
0 on success, 1 (non-zero) when `slack run` fails or an internal error is
thrown, 130 on SIGINT, 143 on SIGTERM — but the SDK variant exits 0 on
SIGINT and SIGTERM and also 0 when the wrapped dev process fails: on the
full-manifest fixture `updateManifest` succeeds, `pnpm dev` is spawned
(one spawn in the trace), and the exit status is 0 regardless of the dev
process's exit code (its wait resolves for any code, and errors after
startup are only logged); only the SDK variant's missing-token abort exits
non-zero. -/
theorem C4_exit_codes_by_variant :
    (firstMain ["node", "dev.tunnel.ts"] fsEx orcOk).exitCode = 0
    ∧ (firstMain ["node", "dev.tunnel.ts"] fsEx ⟨some "https://new.ngrok.app", some 1⟩).exitCode = 1
    ∧ (firstMain ["node", "dev.tunnel.ts"] [] orcIdle).exitCode = 1
    ∧ firstSignalExit .sigint = 130 ∧ firstSignalExit .sigterm = 143
    ∧ secondSignalExit .sigint = 0 ∧ secondSignalExit .sigterm = 0
    ∧ countSpawns (secondScript (some "tok") [("manifest.json", .jsonPretty maniFull)]
        ⟨some "https://new.ngrok.app", 1⟩).trace = 1
    ∧ (∀ devCode : Int, (secondScript (some "tok") [("manifest.json", .jsonPretty maniFull)]
        ⟨some "https://new.ngrok.app", devCode⟩).exitCode = 0)
    ∧ (secondScript none [] ⟨none, 0⟩).exitCode = 1 :=
  ⟨rfl, rfl, rfl, rfl, rfl, rfl, rfl, rfl, fun _ => rfl, rfl⟩

/-- Claim C5, counterexample: the `finally` path of the SDK variant's `main`
does not set `isCleaningUp` (source lines 500-504), so a signal delivered
after (or while) the normal-path cleanup runs makes `handleExit` run the
teardown body a second time — the guard does not prevent the
normal-path/signal-path race the claim describes. -/
theorem C5_counterexample_finally_then_signal :
    (handleExit (finallyCleanup ⟨false, 0⟩)).cleanupRuns = 2
    ∧ (handleExit (finallyCleanup ⟨false, 0⟩)).cleanupRuns ≠ 1 := ⟨rfl, by decide⟩

theorem cleanup_cleanupBodyRuns (args : Args) (mp : String) (st : MainState) :
    (cleanup args mp st).cleanupBodyRuns
      = if args.persist then st.cleanupBodyRuns else st.cleanupBodyRuns + 1 := by
  unfold cleanup
  split
  · rfl
  · rfl

/-- Claim C5, amended: teardown runs on every modelled exit path, exactly
once per run of the slack-local `main`'s try/finally (when `--persist` is
not set); the SDK variant's `isCleaningUp` guard does make repeated signal
deliveries run cleanup only once; but the guard is partial — the `finally`
path never sets it, so a signal racing normal completion runs teardown twice
— and the slack-local variant has no guard at all: its `process.on("exit")`
hook runs `cleanup` a second time after the `finally` block already did. -/
theorem C5_teardown_once_guard_partial :
    (∀ argv fs0 orc, (parseArgs argv).persist = false →
        (firstMain argv fs0 orc).state.cleanupBodyRuns = 1)
    ∧ (handleExit (handleExit ⟨false, 0⟩)).cleanupRuns = 1
    ∧ (firstMainWithExitHook ["node", "dev.tunnel.ts", "--dry-run"] fsEx
        orcIdle).cleanupBodyRuns = 2 := by
  refine ⟨?_, rfl, rfl⟩
  intro argv fs0 orc hpers
  simp only [firstMain]
  repeat' split
  all_goals simp [cleanup_cleanupBodyRuns, hpers]

/-- Witness for the amended C5: the dry-run fixture runs the teardown body
exactly once inside `main`. -/
theorem C5_teardown_once_guard_partial_witness :
    (firstMain ["node", "dev.tunnel.ts", "--dry-run"] fsEx orcIdle).state.cleanupBodyRuns = 1 :=
  C5_teardown_once_guard_partial.1 ["node", "dev.tunnel.ts", "--dry-run"] fsEx orcIdle rfl

end DevTunnel
